import Mathlib

/-!
# Verification of the momo_lny_game core (solver / classifier / rescan controller)

Shallow embedding of the core algorithms of the repository:

* `bot/solver.py`   — `pad_board`, `can_connect`, `find_pair`
* `bot/classify.py` — `classify_block_or_empty`, `group_tiles_by_similarity`,
  `classify_board`
* `bot/state.py`    — `init_runtime_state`, `should_full_rescan`,
  `apply_successful_move`

Numpy 2-D arrays are embedded as a dimension pair together with a value
function (only in-bounds entries are ever consulted by the embedded code).
Python floats are embedded as rationals.  The OpenCV image primitives used by
the classifier (`cv2.matchTemplate`, colour conversions, …) are external
library calls, not code of this repository; they are embedded as abstract
score functions collected in `ImgOps`.

The breadth-first search of `can_connect` (a worklist loop over states
`(row, col, direction, turns)` run to exhaustion) is embedded as the level
sets of its successor relation: `levels n` collects every state reachable
from the origin within `n + 1` ray expansions, and the search succeeds
exactly when some explored state (or the origin itself) shoots a ray that
reaches the target.  `stateCount` iterations are at least the number of
distinct states (`rows·cols` positions × 4 directions × 3 turn budgets), so
`levels (stateCount g)` contains every state the Python worklist ever pops.
The `best_turns` dominance test of the source only suppresses re-expansion
of states whose success rays are subsumed by an already-queued state with
the same position and direction and a smaller turn budget, so it does not
change the boolean result.
-/

/-- A board cell, as the Python `tuple[int, int]` of coordinates. -/
abbrev Cell := Int × Int

/-- A 2-D `numpy` array of integers: its shape plus its entries. -/
structure PBoard where
  rows : Nat
  cols : Nat
  val : Int → Int → Int

/-- `0 <= r < rows and 0 <= c < cols` (Python bounds test), as a proposition. -/
def inB (g : PBoard) (p : Cell) : Prop :=
  0 ≤ p.1 ∧ p.1 < (g.rows : Int) ∧ 0 ≤ p.2 ∧ p.2 < (g.cols : Int)

instance (g : PBoard) (p : Cell) : Decidable (inB g p) := by
  unfold inB; infer_instance

/-- Boolean form of the bounds test. -/
def inBb (g : PBoard) (p : Cell) : Bool := decide (inB g p)

/-- `pad_board`: surround a board with a one-cell border of zeros. -/
def pad_board (b : PBoard) : PBoard where
  rows := b.rows + 2
  cols := b.cols + 2
  val := fun r c =>
    if 1 ≤ r ∧ r ≤ (b.rows : Int) ∧ 1 ≤ c ∧ c ≤ (b.cols : Int) then
      b.val (r - 1) (c - 1)
    else 0

/-- The four ray directions `_DIRS = ((-1,0),(1,0),(0,-1),(0,1))`. -/
def dirDelta : Fin 4 → Int × Int
  | 0 => (-1, 0)
  | 1 => (1, 0)
  | 2 => (0, -1)
  | 3 => (0, 1)

/-- One step from `p` in direction `d`. -/
def cadd (p : Cell) (d : Fin 4) : Cell :=
  (p.1 + (dirDelta d).1, p.2 + (dirDelta d).2)

/-- `k` steps from `p` in direction `d`. -/
def cshift (p : Cell) (d : Fin 4) (k : Nat) : Cell :=
  (p.1 + (k : Int) * (dirDelta d).1, p.2 + (k : Int) * (dirDelta d).2)

/-- A cell the search may enqueue: in bounds, empty, and not the target. -/
def okCell (g : PBoard) (b : Cell) (q : Cell) : Prop :=
  inB g q ∧ g.val q.1 q.2 = 0 ∧ q ≠ b

instance (g : PBoard) (b q : Cell) : Decidable (okCell g b q) := by
  unfold okCell; infer_instance

/--
The inner `while` loop of `can_connect`: extend a ray from `p` in direction
`d`.  Returns the cells the ray passes through (those the source enqueues)
and whether the ray reached the target `b`.  The ray stops at the first
out-of-bounds cell or at the first non-empty cell other than `b`; it reports
success the moment it reaches `b`.  `fuel` bounds the number of steps; the
search always supplies at least `rows + cols + 2`, which a ray that stays in
bounds can never exhaust.
-/
def rayStep (g : PBoard) (b : Cell) (d : Fin 4) : Nat → Cell → List Cell × Bool
  | 0, _ => ([], false)
  | fuel + 1, p =>
    let q := cadd p d
    if inBb g q then
      if q = b then ([], true)
      else if g.val q.1 q.2 ≠ 0 then ([], false)
      else
        let r := rayStep g b d fuel q
        (q :: r.1, r.2)
    else ([], false)

/-- Fuel with which every in-bounds ray runs to its natural end. -/
def stFuel (g : PBoard) : Nat := g.rows + g.cols + 2

/-- A BFS state `(position, incoming direction, turns used)`. -/
abbrev Stt := Cell × Fin 4 × Nat

/-- The turn cost of leaving a state with incoming direction `d` (turn
budget `t`) in direction `d'`: straight continuation is free, any other
direction costs one turn. -/
def turnCost (d : Fin 4) (t : Nat) (d' : Fin 4) : Nat :=
  if d' = d then t else t + 1

/-- Successor states of one BFS state: for each direction whose turn cost
stays within the two-turn budget, every cell of the extended ray. -/
def succsOf (g : PBoard) (b : Cell) (s : Stt) : List Stt :=
  (List.finRange 4).flatMap fun d' =>
    if turnCost s.2.1 s.2.2 d' ≤ 2 then
      ((rayStep g b d' (stFuel g) s.1).1).map fun q => (q, d', turnCost s.2.1 s.2.2 d')
    else []

/-- States reached by the very first expansion: the origin has undefined
incoming direction (`dir_idx = -1`), so every direction costs zero turns. -/
def level0 (g : PBoard) (b a : Cell) : List Stt :=
  (List.finRange 4).flatMap fun d =>
    ((rayStep g b d (stFuel g) a).1).map fun q => (q, d, 0)

/-- Level sets of the BFS successor relation. -/
def levels (g : PBoard) (b a : Cell) : Nat → List Stt
  | 0 => level0 g b a
  | n + 1 => levels g b a n ++ (levels g b a n).flatMap (succsOf g b)

/-- An iteration count at least the size of the whole state space
(`rows · cols` positions × 4 directions × 3 turn budgets), beyond the
fixpoint the Python worklist drains to. -/
def stateCount (g : PBoard) : Nat := 12 * g.rows * g.cols + 3

/-- The worklist search succeeds iff the origin, or some reached state whose
departure cost stays within budget, shoots a ray that reaches `b`. -/
def bfsSuccess (g : PBoard) (b a : Cell) : Bool :=
  ((List.finRange 4).any fun d => (rayStep g b d (stFuel g) a).2)
  || ((levels g b a (stateCount g)).any fun s =>
        (List.finRange 4).any fun d' =>
          decide (turnCost s.2.1 s.2.2 d' ≤ 2) && (rayStep g b d' (stFuel g) s.1).2)

/-- `can_connect`: whether two padded-board cells connect with at most two
turns.  Mirrors the guard structure of the source: equal cells, an
out-of-bounds coordinate, a non-positive tile or differing tiles fail
immediately; otherwise the BFS decides. -/
def can_connect (g : PBoard) (a b : Cell) : Bool :=
  if a = b then false
  else if !(inBb g a && inBb g b) then false
  else
    if g.val a.1 a.2 ≤ 0 ∨ g.val b.1 b.2 ≤ 0 ∨ g.val a.1 a.2 ≠ g.val b.1 b.2 then false
    else bfsSuccess g b a

/-- End cell of a walk from `p` along the direction list `ds`. -/
def walk (p : Cell) (ds : List (Fin 4)) : Cell :=
  ds.foldl cadd p

/-- Cells visited by a walk from `p` along `ds`, excluding `p` itself
(the final cell is the last entry). -/
def walkCells : Cell → List (Fin 4) → List Cell
  | _, [] => []
  | p, d :: ds => cadd p d :: walkCells (cadd p d) ds

/-- Number of travel-direction changes along a direction list. -/
def dirChanges : List (Fin 4) → Nat
  | [] => 0
  | [_] => 0
  | d1 :: d2 :: ds => (if d1 = d2 then 0 else 1) + dirChanges (d2 :: ds)

/--
The specification's connecting path, stated from the spec's words: a
non-empty orthogonal path on the padded board that starts at `a`,
terminates at `b`, whose intermediate cells (every visited cell except the
final `b`) are in bounds and hold value `0`, and which changes travel
direction at most twice.
-/
def IsConnPath (g : PBoard) (a b : Cell) (ds : List (Fin 4)) : Prop :=
  ds ≠ [] ∧ walk a ds = b ∧ dirChanges ds ≤ 2 ∧
    ∀ q ∈ (walkCells a ds).dropLast, inB g q ∧ g.val q.1 q.2 = 0

theorem cshift_zero (p : Cell) (d : Fin 4) : cshift p d 0 = p := by
  simp [cshift]

theorem cshift_one (p : Cell) (d : Fin 4) : cshift p d 1 = cadd p d := by
  simp [cshift, cadd]

theorem cshift_succ (p : Cell) (d : Fin 4) (k : Nat) :
    cshift p d (k + 1) = cshift (cadd p d) d k := by
  simp only [cshift, cadd, Prod.mk.injEq]
  constructor <;> push_cast <;> ring

theorem cshift_add (p : Cell) (d : Fin 4) (j k : Nat) :
    cshift p d (j + k) = cshift (cshift p d j) d k := by
  simp only [cshift, Prod.mk.injEq]
  constructor <;> push_cast <;> ring

theorem walk_nil (p : Cell) : walk p [] = p := rfl

theorem walk_cons (p : Cell) (d : Fin 4) (ds : List (Fin 4)) :
    walk p (d :: ds) = walk (cadd p d) ds := rfl

theorem walk_append (p : Cell) (ds es : List (Fin 4)) :
    walk p (ds ++ es) = walk (walk p ds) es := by
  simp [walk, List.foldl_append]

theorem walkCells_append (p : Cell) (ds es : List (Fin 4)) :
    walkCells p (ds ++ es) = walkCells p ds ++ walkCells (walk p ds) es := by
  induction ds generalizing p with
  | nil => simp [walkCells, walk_nil]
  | cons d ds ih => simp [walkCells, walk_cons, ih]

theorem walkCells_length (p : Cell) (ds : List (Fin 4)) :
    (walkCells p ds).length = ds.length := by
  induction ds generalizing p with
  | nil => rfl
  | cons d ds ih => simp [walkCells, ih]

theorem walk_replicate (p : Cell) (d : Fin 4) (k : Nat) :
    walk p (List.replicate k d) = cshift p d k := by
  induction k generalizing p with
  | zero => simp [walk_nil, cshift_zero]
  | succ k ih =>
    rw [List.replicate_succ, walk_cons, ih, ← cshift_succ]

theorem walkCells_replicate (p : Cell) (d : Fin 4) (k : Nat) :
    walkCells p (List.replicate k d) = (List.range' 1 k).map (cshift p d) := by
  induction k generalizing p with
  | zero => simp [walkCells]
  | succ k ih =>
    rw [List.replicate_succ', walkCells_append, ih, walk_replicate]
    have h1 : List.range' 1 (k + 1) = List.range' 1 k ++ [1 + 1 * k] := List.range'_concat 1 k
    rw [h1, List.map_append]
    congr 1
    show [cadd (cshift p d k) d] = [cshift p d (1 + 1 * k)]
    have h2 : cshift p d (k + 1) = cadd (cshift p d k) d := by
      rw [cshift_add p d k 1, cshift_one]
    have h3 : 1 + 1 * k = k + 1 := by ring
    rw [h3, h2]

theorem dirChanges_cons_cons (d1 d2 : Fin 4) (ds : List (Fin 4)) :
    dirChanges (d1 :: d2 :: ds) = (if d1 = d2 then 0 else 1) + dirChanges (d2 :: ds) := rfl

theorem dirChanges_replicate (d : Fin 4) (k : Nat) :
    dirChanges (List.replicate k d) = 0 := by
  induction k with
  | zero => rfl
  | succ k ih =>
    cases k with
    | zero => rfl
    | succ m =>
      show dirChanges (d :: d :: List.replicate m d) = 0
      rw [dirChanges_cons_cons]
      have hrep : (d :: List.replicate m d) = List.replicate (m + 1) d := rfl
      rw [hrep, ih]
      simp

theorem getLast?_replicate_pos (d : Fin 4) (k : Nat) (hk : 1 ≤ k) :
    (List.replicate k d).getLast? = some d := by
  induction k with
  | zero => omega
  | succ k ih =>
    cases k with
    | zero => rfl
    | succ m =>
      show (d :: d :: List.replicate m d).getLast? = some d
      rw [List.getLast?_cons_cons]
      exact ih (by omega)

theorem dirChanges_append_cons (xs : List (Fin 4)) (y : Fin 4) (ys : List (Fin 4))
    (hxs : xs ≠ []) :
    dirChanges (xs ++ y :: ys) =
      dirChanges xs + (if xs.getLast? = some y then 0 else 1) + dirChanges (y :: ys) := by
  induction xs with
  | nil => exact absurd rfl hxs
  | cons x xs ih =>
    cases xs with
    | nil =>
      simp only [List.cons_append, List.nil_append, List.getLast?_singleton]
      rw [dirChanges_cons_cons]
      have : dirChanges [x] = 0 := rfl
      rw [this]
      by_cases h : x = y <;> simp [h, Option.some_inj]
    | cons x2 xs2 =>
      have hcons : ((x :: x2 :: xs2) ++ y :: ys) = x :: ((x2 :: xs2) ++ y :: ys) := rfl
      rw [hcons]
      have hhead : (x2 :: xs2) ++ y :: ys = x2 :: (xs2 ++ y :: ys) := rfl
      rw [hhead, dirChanges_cons_cons, ← hhead, ih (by simp)]
      rw [dirChanges_cons_cons]
      rw [List.getLast?_cons_cons]
      omega

theorem rayStep_hit_iff (g : PBoard) (b : Cell) (d : Fin 4) :
    ∀ (fuel : Nat) (p : Cell),
      (rayStep g b d fuel p).2 = true ↔
        ∃ k, 1 ≤ k ∧ k ≤ fuel ∧ cshift p d k = b ∧ inB g b ∧
          ∀ j, 1 ≤ j → j < k → okCell g b (cshift p d j) := by
  intro fuel
  induction fuel with
  | zero =>
    intro p
    simp only [rayStep]
    constructor
    · intro h; cases h
    · rintro ⟨k, hk1, hk0, -⟩; omega
  | succ fuel ih =>
    intro p
    simp only [rayStep]
    by_cases hq : inBb g (cadd p d)
    · have hqB : inB g (cadd p d) := of_decide_eq_true hq
      rw [if_pos hq]
      by_cases hb : cadd p d = b
      · rw [if_pos hb]
        simp only [true_iff]
        exact ⟨1, le_refl 1, by omega, by rw [cshift_one, hb], hb ▸ hqB,
          fun j h1 h2 => by omega⟩
      · rw [if_neg hb]
        by_cases hv : g.val (cadd p d).1 (cadd p d).2 ≠ 0
        · rw [if_pos hv]
          refine iff_of_false Bool.false_ne_true ?_
          rintro ⟨k, hk1, hkf, hkb, hB, hok⟩
          rcases Nat.lt_or_ge 1 k with h1k | h1k
          · have := hok 1 (le_refl 1) h1k
            rw [cshift_one] at this
            exact hv this.2.1
          · have hk : k = 1 := by omega
            rw [hk, cshift_one] at hkb
            exact hb hkb
        · rw [if_neg hv]
          push_neg at hv
          show (rayStep g b d fuel (cadd p d)).2 = true ↔ _
          rw [ih (cadd p d)]
          constructor
          · rintro ⟨k, hk1, hkf, hkb, hB, hok⟩
            refine ⟨k + 1, by omega, by omega, by rw [cshift_succ]; exact hkb, hB, ?_⟩
            intro j hj1 hjk
            rcases Nat.lt_or_ge 1 j with h1j | h1j
            · obtain ⟨m, rfl⟩ : ∃ m, j = m + 1 := ⟨j - 1, by omega⟩
              rw [cshift_succ]
              exact hok m (by omega) (by omega)
            · have : j = 1 := by omega
              rw [this, cshift_one]
              exact ⟨hqB, hv, hb⟩
          · rintro ⟨k, hk1, hkf, hkb, hB, hok⟩
            have hk2 : 2 ≤ k := by
              rcases Nat.lt_or_ge 1 k with h | h
              · omega
              · exfalso
                have : k = 1 := by omega
                rw [this, cshift_one] at hkb
                exact hb hkb
            obtain ⟨m, rfl⟩ : ∃ m, k = m + 1 := ⟨k - 1, by omega⟩
            refine ⟨m, by omega, by omega, by rw [← cshift_succ]; exact hkb, hB, ?_⟩
            intro j hj1 hjm
            rw [← cshift_succ]
            exact hok (j + 1) (by omega) (by omega)
    · rw [if_neg hq]
      refine iff_of_false Bool.false_ne_true ?_
      rintro ⟨k, hk1, hkf, hkb, hB, hok⟩
      have hqB : ¬ inB g (cadd p d) := fun h => hq (decide_eq_true h)
      rcases Nat.lt_or_ge 1 k with h1k | h1k
      · have := hok 1 (le_refl 1) h1k
        rw [cshift_one] at this
        exact hqB this.1
      · have : k = 1 := by omega
        rw [this, cshift_one] at hkb
        exact hqB (hkb ▸ hB)

theorem rayStep_mem_iff (g : PBoard) (b : Cell) (d : Fin 4) :
    ∀ (fuel : Nat) (p : Cell) (c : Cell),
      c ∈ (rayStep g b d fuel p).1 ↔
        ∃ k, 1 ≤ k ∧ k ≤ fuel ∧ c = cshift p d k ∧
          ∀ j, 1 ≤ j → j ≤ k → okCell g b (cshift p d j) := by
  intro fuel
  induction fuel with
  | zero =>
    intro p c
    simp only [rayStep]
    constructor
    · intro h; cases h
    · rintro ⟨k, hk1, hk0, -⟩; omega
  | succ fuel ih =>
    intro p c
    simp only [rayStep]
    by_cases hq : inBb g (cadd p d)
    · have hqB : inB g (cadd p d) := of_decide_eq_true hq
      rw [if_pos hq]
      by_cases hb : cadd p d = b
      · rw [if_pos hb]
        refine iff_of_false (List.not_mem_nil c) ?_
        rintro ⟨k, hk1, hkf, hkc, hok⟩
        have := hok 1 (le_refl 1) hk1
        rw [cshift_one] at this
        exact this.2.2 hb
      · rw [if_neg hb]
        by_cases hv : g.val (cadd p d).1 (cadd p d).2 ≠ 0
        · rw [if_pos hv]
          refine iff_of_false (List.not_mem_nil c) ?_
          rintro ⟨k, hk1, hkf, hkc, hok⟩
          have := hok 1 (le_refl 1) hk1
          rw [cshift_one] at this
          exact hv this.2.1
        · rw [if_neg hv]
          push_neg at hv
          show c ∈ cadd p d :: (rayStep g b d fuel (cadd p d)).1 ↔ _
          rw [List.mem_cons, ih (cadd p d) c]
          constructor
          · rintro (rfl | ⟨k, hk1, hkf, hkc, hok⟩)
            · exact ⟨1, le_refl 1, by omega, (cshift_one p d).symm,
                fun j hj1 hj2 => by
                  have : j = 1 := by omega
                  rw [this, cshift_one]; exact ⟨hqB, hv, hb⟩⟩
            · refine ⟨k + 1, by omega, by omega, by rw [cshift_succ]; exact hkc, ?_⟩
              intro j hj1 hjk
              rcases Nat.lt_or_ge 1 j with h1j | h1j
              · obtain ⟨m, rfl⟩ : ∃ m, j = m + 1 := ⟨j - 1, by omega⟩
                rw [cshift_succ]
                exact hok m (by omega) (by omega)
              · have : j = 1 := by omega
                rw [this, cshift_one]
                exact ⟨hqB, hv, hb⟩
          · rintro ⟨k, hk1, hkf, hkc, hok⟩
            rcases Nat.lt_or_ge 1 k with h1k | h1k
            · right
              obtain ⟨m, rfl⟩ : ∃ m, k = m + 1 := ⟨k - 1, by omega⟩
              refine ⟨m, by omega, by omega, by rw [← cshift_succ]; exact hkc, ?_⟩
              intro j hj1 hjm
              rw [← cshift_succ]
              exact hok (j + 1) (by omega) (by omega)
            · left
              have : k = 1 := by omega
              rw [this, cshift_one] at hkc
              exact hkc
    · rw [if_neg hq]
      refine iff_of_false (List.not_mem_nil c) ?_
      rintro ⟨k, hk1, hkf, hkc, hok⟩
      have hqB : ¬ inB g (cadd p d) := fun h => hq (decide_eq_true h)
      have := hok 1 (le_refl 1) hk1
      rw [cshift_one] at this
      exact hqB this.1

theorem cshift_inB_le (g : PBoard) (p : Cell) (d : Fin 4) (k : Nat)
    (hp : inB g p) (hq : inB g (cshift p d k)) : k ≤ g.rows + g.cols := by
  fin_cases d <;>
    simp only [cshift, dirDelta, inB] at hp hq <;>
    omega

theorem stFuel_of_inB (g : PBoard) (p : Cell) (d : Fin 4) (k : Nat)
    (hp : inB g p) (hq : inB g (cshift p d k)) : k ≤ stFuel g := by
  have := cshift_inB_le g p d k hp hq
  unfold stFuel
  omega

theorem walk_mem_walkCells (p : Cell) (ds : List (Fin 4)) (h : ds ≠ []) :
    walk p ds ∈ walkCells p ds := by
  induction ds generalizing p with
  | nil => exact absurd rfl h
  | cons d ds ih =>
    cases ds with
    | nil => simp [walk, walkCells, List.foldl]
    | cons e es =>
      rw [walk_cons]
      exact List.mem_cons_of_mem _ (ih (cadd p d) (by simp))

/-- Breadth-first-search invariant: a reached state is within the turn
budget and is witnessed by a non-empty walk from the origin through
enqueueable (in-bounds, empty, non-target) cells, ending at the state's
position, arriving in the state's direction, with no more direction
changes than the state's turn count. -/
def StInv (g : PBoard) (b a : Cell) (s : Stt) : Prop :=
  s.2.2 ≤ 2 ∧ ∃ ds, ds ≠ [] ∧ walk a ds = s.1 ∧ ds.getLast? = some s.2.1 ∧
    dirChanges ds ≤ s.2.2 ∧ ∀ q ∈ walkCells a ds, okCell g b q

theorem repl_ne_nil (d : Fin 4) (k : Nat) (hk : 1 ≤ k) :
    List.replicate k d ≠ [] := by
  intro h
  have := congrArg List.length h
  simp at this
  omega

theorem level0_sound (g : PBoard) (b a : Cell) :
    ∀ s ∈ level0 g b a, StInv g b a s := by
  intro s hmem
  rw [level0, List.mem_flatMap] at hmem
  obtain ⟨d0, -, hmem⟩ := hmem
  rw [List.mem_map] at hmem
  obtain ⟨q0, hq0, heq⟩ := hmem
  subst heq
  rw [rayStep_mem_iff] at hq0
  obtain ⟨k, hk1, hkf, rfl, hok⟩ := hq0
  refine ⟨Nat.zero_le 2, List.replicate k d0, repl_ne_nil d0 k hk1, ?_, ?_, ?_, ?_⟩
  · exact walk_replicate a d0 k
  · exact getLast?_replicate_pos d0 k hk1
  · simp [dirChanges_replicate]
  · intro q hq
    rw [walkCells_replicate, List.mem_map] at hq
    obtain ⟨j, hj, rfl⟩ := hq
    rw [List.mem_range'_1] at hj
    exact hok j hj.1 (by omega)

theorem succsOf_sound (g : PBoard) (b a : Cell) (s : Stt) (hs : StInv g b a s) :
    ∀ s' ∈ succsOf g b s, StInv g b a s' := by
  intro s' hmem
  rw [succsOf, List.mem_flatMap] at hmem
  obtain ⟨d0, -, hmem⟩ := hmem
  by_cases hc : turnCost s.2.1 s.2.2 d0 ≤ 2
  · rw [if_pos hc, List.mem_map] at hmem
    obtain ⟨q0, hq0, heq⟩ := hmem
    subst heq
    rw [rayStep_mem_iff] at hq0
    obtain ⟨k, hk1, hkf, rfl, hok⟩ := hq0
    obtain ⟨hst, ds, hne, hwalk, hlast, hch, hcells⟩ := hs
    refine ⟨hc, ds ++ List.replicate k d0, by simp [hne], ?_, ?_, ?_, ?_⟩
    · rw [walk_append, hwalk, walk_replicate]
    · rw [List.getLast?_append_of_ne_nil ds (repl_ne_nil d0 k hk1)]
      exact getLast?_replicate_pos d0 k hk1
    · obtain ⟨m, rfl⟩ : ∃ m, k = m + 1 := ⟨k - 1, by omega⟩
      have hrep : List.replicate (m + 1) d0 = d0 :: List.replicate m d0 := rfl
      rw [hrep, dirChanges_append_cons ds d0 (List.replicate m d0) hne, hlast, ← hrep,
        dirChanges_replicate]
      show (dirChanges ds + if some s.2.1 = some d0 then 0 else 1) + 0 ≤ turnCost s.2.1 s.2.2 d0
      unfold turnCost
      by_cases hdd : d0 = s.2.1
      · rw [if_pos (by rw [hdd]), if_pos hdd]
        omega
      · rw [if_neg (by simp [eq_comm, hdd]), if_neg hdd]
        omega
    · intro c hcmem
      rw [walkCells_append, List.mem_append] at hcmem
      rcases hcmem with h | h
      · exact hcells c h
      · rw [hwalk, walkCells_replicate, List.mem_map] at h
        obtain ⟨j, hj, rfl⟩ := h
        rw [List.mem_range'_1] at hj
        exact hok j hj.1 (by omega)
  · rw [if_neg hc] at hmem
    cases hmem

theorem levels_sound (g : PBoard) (b a : Cell) :
    ∀ n, ∀ s ∈ levels g b a n, StInv g b a s := by
  intro n
  induction n with
  | zero => exact level0_sound g b a
  | succ n ih =>
    intro s hs
    rw [levels, List.mem_append] at hs
    rcases hs with h | h
    · exact ih s h
    · rw [List.mem_flatMap] at h
      obtain ⟨s0, hs0, h⟩ := h
      exact succsOf_sound g b a s0 (ih s0 hs0) s h

theorem levels_subset_succ (g : PBoard) (b a : Cell) (n : Nat) :
    levels g b a n ⊆ levels g b a (n + 1) := by
  intro s hs
  rw [levels, List.mem_append]
  exact Or.inl hs

theorem levels_mono (g : PBoard) (b a : Cell) {m n : Nat} (h : m ≤ n) :
    levels g b a m ⊆ levels g b a n := by
  induction n with
  | zero =>
    have : m = 0 := by omega
    rw [this]
    exact fun s hs => hs
  | succ n ih =>
    rcases Nat.lt_or_ge m (n + 1) with h' | h'
    · exact fun s hs => levels_subset_succ g b a n (ih (by omega) hs)
    · have : m = n + 1 := by omega
      rw [this]
      exact fun s hs => hs

theorem dropLast_map_range' (f : Nat → Cell) (k : Nat) :
    ((List.range' 1 k).map f).dropLast = (List.range' 1 (k - 1)).map f := by
  cases k with
  | zero => simp
  | succ m =>
    rw [List.range'_concat, List.map_append]
    simp

theorem walkCells_replicate_ne_nil (p : Cell) (d : Fin 4) (k : Nat) (hk : 1 ≤ k) :
    walkCells p (List.replicate k d) ≠ [] := by
  intro h
  have := congrArg List.length h
  rw [walkCells_length] at this
  simp at this
  omega

theorem path_of_bfsSuccess (g : PBoard) (a b : Cell)
    (h : bfsSuccess g b a = true) : ∃ ds, IsConnPath g a b ds := by
  rw [bfsSuccess, Bool.or_eq_true] at h
  rcases h with h | h
  · rw [List.any_eq_true] at h
    obtain ⟨d, -, hray⟩ := h
    rw [rayStep_hit_iff] at hray
    obtain ⟨k, hk1, hkf, hkb, hB, hok⟩ := hray
    refine ⟨List.replicate k d, repl_ne_nil d k hk1, ?_, ?_, ?_⟩
    · rw [walk_replicate]; exact hkb
    · rw [dirChanges_replicate]; omega
    · intro q hq
      rw [walkCells_replicate, dropLast_map_range', List.mem_map] at hq
      obtain ⟨j, hj, rfl⟩ := hq
      rw [List.mem_range'_1] at hj
      have := hok j hj.1 (by omega)
      exact ⟨this.1, this.2.1⟩
  · rw [List.any_eq_true] at h
    obtain ⟨s, hs, h⟩ := h
    rw [List.any_eq_true] at h
    obtain ⟨d', -, h⟩ := h
    rw [Bool.and_eq_true, decide_eq_true_eq] at h
    obtain ⟨hcost, hray⟩ := h
    rw [rayStep_hit_iff] at hray
    obtain ⟨k, hk1, hkf, hkb, hB, hok⟩ := hray
    obtain ⟨hst, ds, hne, hwalk, hlast, hch, hcells⟩ := levels_sound g b a _ s hs
    refine ⟨ds ++ List.replicate k d', by simp [hne], ?_, ?_, ?_⟩
    · rw [walk_append, hwalk, walk_replicate]; exact hkb
    · obtain ⟨m, rfl⟩ : ∃ m, k = m + 1 := ⟨k - 1, by omega⟩
      have hrep : List.replicate (m + 1) d' = d' :: List.replicate m d' := rfl
      rw [hrep, dirChanges_append_cons ds d' _ hne, hlast, ← hrep, dirChanges_replicate]
      unfold turnCost at hcost
      by_cases hdd : d' = s.2.1
      · subst hdd
        rw [if_pos rfl] at hcost
        rw [if_pos rfl]
        omega
      · rw [if_neg hdd] at hcost
        rw [if_neg (fun hcontra => hdd (Option.some_inj.mp hcontra).symm)]
        omega
    · intro q hq
      rw [walkCells_append, hwalk,
        List.dropLast_append_of_ne_nil _ (walkCells_replicate_ne_nil s.1 d' k hk1),
        List.mem_append] at hq
      rcases hq with hq | hq
      · obtain ⟨hin, hval, -⟩ := hcells q hq
        exact ⟨hin, hval⟩
      · rw [walkCells_replicate, dropLast_map_range', List.mem_map] at hq
        obtain ⟨j, hj, rfl⟩ := hq
        rw [List.mem_range'_1] at hj
        have := hok j hj.1 (by omega)
        exact ⟨this.1, this.2.1⟩

/-- Group a direction list into maximal straight runs `(direction, length)`. -/
def toBlocks : List (Fin 4) → List (Fin 4 × Nat)
  | [] => []
  | d :: ds =>
    match toBlocks ds with
    | [] => [(d, 1)]
    | (d2, n) :: rest => if d = d2 then (d2, n + 1) :: rest else (d, 1) :: (d2, n) :: rest

/-- Flatten a block list back into a direction list. -/
def blockFlat (bs : List (Fin 4 × Nat)) : List (Fin 4) :=
  bs.flatMap fun bl => List.replicate bl.2 bl.1

theorem blockFlat_nil : blockFlat [] = [] := rfl

theorem blockFlat_cons (bl : Fin 4 × Nat) (bs : List (Fin 4 × Nat)) :
    blockFlat (bl :: bs) = List.replicate bl.2 bl.1 ++ blockFlat bs := by
  simp [blockFlat]

theorem toBlocks_cons_eq (d : Fin 4) (ds : List (Fin 4)) :
    toBlocks (d :: ds) =
      match toBlocks ds with
      | [] => [(d, 1)]
      | (d2, n) :: rest =>
        if d = d2 then (d2, n + 1) :: rest else (d, 1) :: (d2, n) :: rest := rfl

theorem toBlocks_eq_nil_of (d : Fin 4) (ds : List (Fin 4)) (h : toBlocks ds = []) :
    toBlocks (d :: ds) = [(d, 1)] := by
  rw [toBlocks_cons_eq, h]

theorem toBlocks_eq_cons_of (d : Fin 4) (ds : List (Fin 4)) (d2 : Fin 4) (n : Nat)
    (rest : List (Fin 4 × Nat)) (h : toBlocks ds = (d2, n) :: rest) :
    toBlocks (d :: ds) =
      if d = d2 then (d2, n + 1) :: rest else (d, 1) :: (d2, n) :: rest := by
  rw [toBlocks_cons_eq, h]

theorem toBlocks_flat : ∀ ds : List (Fin 4), blockFlat (toBlocks ds) = ds := by
  intro ds
  induction ds with
  | nil => rfl
  | cons d ds ih =>
    cases hbs : toBlocks ds with
    | nil =>
      rw [hbs] at ih
      have hnil : ds = [] := by rw [← ih]; rfl
      subst hnil
      rw [toBlocks_eq_nil_of d [] hbs]
      rfl
    | cons bl rest =>
      obtain ⟨d2, n⟩ := bl
      rw [hbs] at ih
      rw [toBlocks_eq_cons_of d ds d2 n rest hbs]
      by_cases hd : d = d2
      · subst hd
        rw [if_pos rfl]
        rw [blockFlat_cons] at ih ⊢
        show (List.replicate (n + 1) d ++ blockFlat rest) = d :: ds
        rw [List.replicate_succ, List.cons_append, ih]
      · rw [if_neg hd, blockFlat_cons, ih]
        simp

theorem toBlocks_head : ∀ (ds : List (Fin 4)) (d : Fin 4),
    ∃ n rest, toBlocks (d :: ds) = (d, n) :: rest ∧ 1 ≤ n := by
  intro ds
  induction ds with
  | nil => exact fun d => ⟨1, [], rfl, le_refl 1⟩
  | cons e es ih =>
    intro d
    obtain ⟨n, rest, hes, hn⟩ := ih e
    rw [toBlocks_eq_cons_of d (e :: es) e n rest hes]
    by_cases hd : d = e
    · subst hd
      exact ⟨n + 1, rest, by rw [if_pos rfl], by omega⟩
    · exact ⟨1, (e, n) :: rest, by rw [if_neg hd], le_refl 1⟩

theorem toBlocks_length : ∀ (ds : List (Fin 4)) (d : Fin 4),
    (toBlocks (d :: ds)).length = dirChanges (d :: ds) + 1 := by
  intro ds
  induction ds with
  | nil => intro d; rfl
  | cons e es ih =>
    intro d
    obtain ⟨n, rest, hes, -⟩ := toBlocks_head es e
    have hlen : ((e, n) :: rest).length = dirChanges (e :: es) + 1 := by
      rw [← hes]; exact ih e
    rw [toBlocks_eq_cons_of d (e :: es) e n rest hes, dirChanges_cons_cons]
    simp only [List.length_cons] at hlen
    by_cases hd : d = e
    · subst hd
      rw [if_pos rfl, if_pos rfl]
      simp only [List.length_cons]
      omega
    · rw [if_neg hd, if_neg hd]
      simp only [List.length_cons]
      omega

theorem toBlocks_pos : ∀ (ds : List (Fin 4)) (bl : Fin 4 × Nat),
    bl ∈ toBlocks ds → 1 ≤ bl.2 := by
  intro ds
  induction ds with
  | nil => intro bl h; cases h
  | cons d ds ih =>
    intro bl h
    cases hbs : toBlocks ds with
    | nil =>
      rw [toBlocks_eq_nil_of d ds hbs] at h
      simp at h
      rw [h]
    | cons bl2 rest =>
      obtain ⟨d2, n⟩ := bl2
      rw [toBlocks_eq_cons_of d ds d2 n rest hbs] at h
      have hn : 1 ≤ n := ih (d2, n) (by rw [hbs]; exact List.mem_cons_self _ _)
      by_cases hd : d = d2
      · rw [if_pos hd] at h
        rcases List.mem_cons.mp h with rfl | h
        · simp
        · exact ih bl (by rw [hbs]; exact List.mem_cons_of_mem _ h)
      · rw [if_neg hd] at h
        rcases List.mem_cons.mp h with rfl | h
        · simp
        · exact ih bl (by rw [hbs]; exact h)

theorem ray_mem_of_blockcells (g : PBoard) (b p : Cell) (d : Fin 4) (n : Nat)
    (hn : 1 ≤ n) (hp : inB g p)
    (hok : ∀ j, 1 ≤ j → j ≤ n → okCell g b (cshift p d j)) :
    cshift p d n ∈ (rayStep g b d (stFuel g) p).1 := by
  have hfuel : n ≤ stFuel g := stFuel_of_inB g p d n hp (hok n hn (le_refl n)).1
  exact (rayStep_mem_iff g b d (stFuel g) p _).mpr ⟨n, hn, hfuel, rfl, hok⟩

theorem ray_hit_of_blockcells (g : PBoard) (b p : Cell) (d : Fin 4) (n : Nat)
    (hn : 1 ≤ n) (hp : inB g p) (hb : inB g b) (hend : cshift p d n = b)
    (hok : ∀ j, 1 ≤ j → j < n → okCell g b (cshift p d j)) :
    (rayStep g b d (stFuel g) p).2 = true := by
  have hfuel : n ≤ stFuel g := stFuel_of_inB g p d n hp (hend ▸ hb)
  exact (rayStep_hit_iff g b d (stFuel g) p).mpr ⟨n, hn, hfuel, hend, hb, hok⟩

theorem turnCost_first_le (d1 d2 : Fin 4) : turnCost d1 0 d2 ≤ 1 := by
  unfold turnCost
  split <;> omega

theorem bfsSuccess_of_path (g : PBoard) (a b : Cell)
    (hA : inB g a) (hB : inB g b) (hvb : 0 < g.val b.1 b.2) (ds : List (Fin 4))
    (hpath : IsConnPath g a b ds) : bfsSuccess g b a = true := by
  obtain ⟨hne, hwalk, hch, hmid⟩ := hpath
  have hok_all : ∀ q ∈ (walkCells a ds).dropLast, okCell g b q := by
    intro q hq
    obtain ⟨h1, h2⟩ := hmid q hq
    refine ⟨h1, h2, fun he => ?_⟩
    rw [he] at h2
    omega
  clear hmid
  obtain ⟨d1, ds1, rfl⟩ : ∃ d1 ds1, ds = d1 :: ds1 := by
    cases ds with
    | nil => exact absurd rfl hne
    | cons x xs => exact ⟨x, xs, rfl⟩
  have hflat := toBlocks_flat (d1 :: ds1)
  have hlength := toBlocks_length ds1 d1
  obtain ⟨n1, rest1, hbs, hn1⟩ := toBlocks_head ds1 d1
  rw [hbs] at hflat hlength
  rcases rest1 with _ | ⟨⟨d2, n2⟩, rest2⟩
  · -- one straight block
    have heq : d1 :: ds1 = List.replicate n1 d1 := by
      rw [← hflat]; simp [blockFlat]
    rw [heq] at hwalk hok_all
    rw [walk_replicate] at hwalk
    rw [bfsSuccess, Bool.or_eq_true]
    left
    rw [List.any_eq_true]
    refine ⟨d1, List.mem_finRange d1, ?_⟩
    refine ray_hit_of_blockcells g b a d1 n1 hn1 hA hB hwalk ?_
    intro j hj1 hjn
    apply hok_all
    rw [walkCells_replicate, dropLast_map_range']
    exact List.mem_map_of_mem _ (List.mem_range'_1.mpr ⟨hj1, by omega⟩)
  · have hn2 : 1 ≤ n2 := toBlocks_pos (d1 :: ds1) (d2, n2)
      (by rw [hbs]; exact List.mem_cons_of_mem _ (List.mem_cons_self _ _))
    rcases rest2 with _ | ⟨⟨d3, n3⟩, rest3⟩
    · -- two straight blocks
      have heq : d1 :: ds1 = List.replicate n1 d1 ++ List.replicate n2 d2 := by
        rw [← hflat]; simp [blockFlat]
      rw [heq] at hwalk hok_all
      have hq1 : walk a (List.replicate n1 d1) = cshift a d1 n1 := walk_replicate a d1 n1
      have hDL : (walkCells a (List.replicate n1 d1 ++ List.replicate n2 d2)).dropLast
          = walkCells a (List.replicate n1 d1)
            ++ (walkCells (cshift a d1 n1) (List.replicate n2 d2)).dropLast := by
        rw [walkCells_append, hq1,
          List.dropLast_append_of_ne_nil _ (walkCells_replicate_ne_nil _ d2 n2 hn2)]
      rw [hDL] at hok_all
      have hok1 : ∀ j, 1 ≤ j → j ≤ n1 → okCell g b (cshift a d1 j) := by
        intro j hj1 hjn
        apply hok_all
        rw [List.mem_append]
        left
        rw [walkCells_replicate]
        exact List.mem_map_of_mem _ (List.mem_range'_1.mpr ⟨hj1, by omega⟩)
      have hok2 : ∀ j, 1 ≤ j → j < n2 → okCell g b (cshift (cshift a d1 n1) d2 j) := by
        intro j hj1 hjn
        apply hok_all
        rw [List.mem_append]
        right
        rw [walkCells_replicate, dropLast_map_range']
        exact List.mem_map_of_mem _ (List.mem_range'_1.mpr ⟨hj1, by omega⟩)
      have hq1in : inB g (cshift a d1 n1) := (hok1 n1 hn1 (le_refl n1)).1
      have hend : cshift (cshift a d1 n1) d2 n2 = b := by
        rw [walk_append, hq1, walk_replicate] at hwalk
        exact hwalk
      have hs1 : ((cshift a d1 n1, d1, 0) : Stt) ∈ level0 g b a := by
        rw [level0, List.mem_flatMap]
        refine ⟨d1, List.mem_finRange d1, ?_⟩
        exact List.mem_map_of_mem _ (ray_mem_of_blockcells g b a d1 n1 hn1 hA hok1)
      rw [bfsSuccess, Bool.or_eq_true]
      right
      rw [List.any_eq_true]
      refine ⟨(cshift a d1 n1, d1, 0), levels_mono g b a (Nat.zero_le _) hs1, ?_⟩
      rw [List.any_eq_true]
      refine ⟨d2, List.mem_finRange d2, ?_⟩
      rw [Bool.and_eq_true, decide_eq_true_eq]
      constructor
      · show turnCost d1 0 d2 ≤ 2
        have := turnCost_first_le d1 d2
        omega
      · exact ray_hit_of_blockcells g b (cshift a d1 n1) d2 n2 hn2 hq1in hB hend hok2
    · rcases rest3 with _ | ⟨bl4, rest4⟩
      · -- three straight blocks
        have hn3 : 1 ≤ n3 := toBlocks_pos (d1 :: ds1) (d3, n3)
          (by
            rw [hbs]
            exact List.mem_cons_of_mem _ (List.mem_cons_of_mem _ (List.mem_cons_self _ _)))
        have heq : d1 :: ds1
            = List.replicate n1 d1 ++ (List.replicate n2 d2 ++ List.replicate n3 d3) := by
          rw [← hflat]; simp [blockFlat]
        rw [heq] at hwalk hok_all
        have hq1 : walk a (List.replicate n1 d1) = cshift a d1 n1 := walk_replicate a d1 n1
        have hq2 : walk (cshift a d1 n1) (List.replicate n2 d2)
            = cshift (cshift a d1 n1) d2 n2 := walk_replicate _ d2 n2
        have hW23ne : walkCells (cshift a d1 n1) (List.replicate n2 d2 ++ List.replicate n3 d3)
            ≠ [] := by
          rw [walkCells_append]
          intro hcontra
          have := congrArg List.length hcontra
          rw [List.length_append, walkCells_length, walkCells_length] at this
          simp at this
          omega
        have hDL : (walkCells a
              (List.replicate n1 d1 ++ (List.replicate n2 d2 ++ List.replicate n3 d3))).dropLast
            = walkCells a (List.replicate n1 d1)
              ++ (walkCells (cshift a d1 n1) (List.replicate n2 d2)
                ++ (walkCells (cshift (cshift a d1 n1) d2 n2)
                      (List.replicate n3 d3)).dropLast) := by
          rw [walkCells_append, hq1, List.dropLast_append_of_ne_nil _ hW23ne,
            walkCells_append, hq2,
            List.dropLast_append_of_ne_nil _ (walkCells_replicate_ne_nil _ d3 n3 hn3)]
        rw [hDL] at hok_all
        have hok1 : ∀ j, 1 ≤ j → j ≤ n1 → okCell g b (cshift a d1 j) := by
          intro j hj1 hjn
          apply hok_all
          rw [List.mem_append]
          left
          rw [walkCells_replicate]
          exact List.mem_map_of_mem _ (List.mem_range'_1.mpr ⟨hj1, by omega⟩)
        have hok2 : ∀ j, 1 ≤ j → j ≤ n2 → okCell g b (cshift (cshift a d1 n1) d2 j) := by
          intro j hj1 hjn
          apply hok_all
          rw [List.mem_append]
          right
          rw [List.mem_append]
          left
          rw [walkCells_replicate]
          exact List.mem_map_of_mem _ (List.mem_range'_1.mpr ⟨hj1, by omega⟩)
        have hok3 : ∀ j, 1 ≤ j → j < n3 →
            okCell g b (cshift (cshift (cshift a d1 n1) d2 n2) d3 j) := by
          intro j hj1 hjn
          apply hok_all
          rw [List.mem_append]
          right
          rw [List.mem_append]
          right
          rw [walkCells_replicate, dropLast_map_range']
          exact List.mem_map_of_mem _ (List.mem_range'_1.mpr ⟨hj1, by omega⟩)
        have hq1in : inB g (cshift a d1 n1) := (hok1 n1 hn1 (le_refl n1)).1
        have hq2in : inB g (cshift (cshift a d1 n1) d2 n2) := (hok2 n2 hn2 (le_refl n2)).1
        have hend : cshift (cshift (cshift a d1 n1) d2 n2) d3 n3 = b := by
          rw [walk_append, hq1, walk_append, hq2, walk_replicate] at hwalk
          exact hwalk
        have hs1 : ((cshift a d1 n1, d1, 0) : Stt) ∈ level0 g b a := by
          rw [level0, List.mem_flatMap]
          refine ⟨d1, List.mem_finRange d1, ?_⟩
          exact List.mem_map_of_mem _ (ray_mem_of_blockcells g b a d1 n1 hn1 hA hok1)
        have hs2 : ((cshift (cshift a d1 n1) d2 n2, d2, turnCost d1 0 d2) : Stt)
            ∈ succsOf g b (cshift a d1 n1, d1, 0) := by
          rw [succsOf, List.mem_flatMap]
          refine ⟨d2, List.mem_finRange d2, ?_⟩
          rw [if_pos (show turnCost d1 0 d2 ≤ 2 by
            have := turnCost_first_le d1 d2; omega)]
          exact List.mem_map_of_mem _ (ray_mem_of_blockcells g b _ d2 n2 hn2 hq1in hok2)
        have hs2' : ((cshift (cshift a d1 n1) d2 n2, d2, turnCost d1 0 d2) : Stt)
            ∈ levels g b a 1 := by
          rw [levels, List.mem_append]
          right
          rw [List.mem_flatMap]
          exact ⟨(cshift a d1 n1, d1, 0), hs1, hs2⟩
        rw [bfsSuccess, Bool.or_eq_true]
        right
        rw [List.any_eq_true]
        refine ⟨(cshift (cshift a d1 n1) d2 n2, d2, turnCost d1 0 d2),
          levels_mono g b a (by unfold stateCount; omega) hs2', ?_⟩
        rw [List.any_eq_true]
        refine ⟨d3, List.mem_finRange d3, ?_⟩
        rw [Bool.and_eq_true, decide_eq_true_eq]
        constructor
        · show turnCost d2 (turnCost d1 0 d2) d3 ≤ 2
          unfold turnCost
          split <;> split <;> omega
        · exact ray_hit_of_blockcells g b _ d3 n3 hn3 hq2in hB hend hok3
      · -- four or more blocks: impossible with at most two direction changes
        exfalso
        simp only [List.length_cons] at hlength
        omega

/-- The central characterisation of `can_connect`: it returns `true` exactly
when the guard conditions hold and a connecting path with at most two
direction changes exists. -/
theorem can_connect_iff (g : PBoard) (a b : Cell) :
    can_connect g a b = true ↔
      a ≠ b ∧ inB g a ∧ inB g b ∧ 0 < g.val a.1 a.2 ∧ 0 < g.val b.1 b.2 ∧
        g.val a.1 a.2 = g.val b.1 b.2 ∧ ∃ ds, IsConnPath g a b ds := by
  unfold can_connect
  by_cases hab : a = b
  · rw [if_pos hab]
    exact iff_of_false Bool.false_ne_true (fun h => h.1 hab)
  · rw [if_neg hab]
    by_cases hA : inB g a
    · by_cases hBv : inB g b
      · have hbb : (!(inBb g a && inBb g b)) = false := by
          simp [inBb, hA, hBv]
        rw [hbb, if_neg Bool.false_ne_true]
        by_cases hval : g.val a.1 a.2 ≤ 0 ∨ g.val b.1 b.2 ≤ 0 ∨
            g.val a.1 a.2 ≠ g.val b.1 b.2
        · rw [if_pos hval]
          refine iff_of_false Bool.false_ne_true ?_
          rintro ⟨-, -, -, hva, hvb, heq, -⟩
          rcases hval with h | h | h
          · omega
          · omega
          · exact h heq
        · rw [if_neg hval]
          push_neg at hval
          obtain ⟨hva, hvb, heq⟩ := hval
          constructor
          · intro h
            exact ⟨hab, hA, hBv, by omega, by omega, heq, path_of_bfsSuccess g a b h⟩
          · rintro ⟨-, -, -, -, -, -, ds, hpath⟩
            exact bfsSuccess_of_path g a b hA hBv (by omega) ds hpath
      · have hbb : (!(inBb g a && inBb g b)) = true := by
          simp [inBb, hBv]
        rw [hbb, if_pos rfl]
        exact iff_of_false Bool.false_ne_true (fun h => hBv h.2.2.1)
    · have hbb : (!(inBb g a && inBb g b)) = true := by
        simp [inBb, hA]
      rw [hbb, if_pos rfl]
      exact iff_of_false Bool.false_ne_true (fun h => hA h.2.1)

instance (g : PBoard) (a b : Cell) (ds : List (Fin 4)) : Decidable (IsConnPath g a b ds) := by
  unfold IsConnPath
  infer_instance

/-- A concrete integer board given row by row (out-of-range reads are `0`,
as with the zero border the solver adds; only in-bounds entries matter). -/
def listPBoard (l : List (List Int)) : PBoard where
  rows := l.length
  cols := (l.headD []).length
  val := fun r c => ((l.getD r.toNat []).getD c.toNat 0)

/-- C1: `can_connect(padded, a, b)` is false immediately if `a == b`, a
coordinate is out of bounds, a cell value is non-positive or the values
differ; otherwise it is true iff an orthogonal path from `a` to `b` exists
whose intermediate cells are all empty, which terminates at `b`, and which
changes travel direction at most twice. -/
theorem can_connect_path_spec (g : PBoard) (a b : Cell) :
    ((a = b ∨ ¬ inB g a ∨ ¬ inB g b ∨ g.val a.1 a.2 ≤ 0 ∨ g.val b.1 b.2 ≤ 0 ∨
        g.val a.1 a.2 ≠ g.val b.1 b.2) → can_connect g a b = false)
    ∧ (a ≠ b → inB g a → inB g b → 0 < g.val a.1 a.2 → 0 < g.val b.1 b.2 →
        g.val a.1 a.2 = g.val b.1 b.2 →
        (can_connect g a b = true ↔ ∃ ds, IsConnPath g a b ds)) := by
  constructor
  · intro h
    cases hcc : can_connect g a b
    · rfl
    · exfalso
      obtain ⟨hab, hA, hB, hva, hvb, heq, -⟩ := (can_connect_iff g a b).mp hcc
      rcases h with h | h | h | h | h | h
      · exact hab h
      · exact h hA
      · exact h hB
      · omega
      · omega
      · exact h heq
  · intro hab hA hB hva hvb heq
    rw [can_connect_iff]
    constructor
    · rintro ⟨-, -, -, -, -, -, hds⟩
      exact hds
    · intro hds
      exact ⟨hab, hA, hB, hva, hvb, heq, hds⟩

/-- Witness for C1 on the board `[[1, 0, 1]]`: the two `1` tiles on the
padded board connect by a straight two-step path to the right. -/
theorem can_connect_path_spec_witness :
    can_connect (pad_board (listPBoard [[1, 0, 1]])) (1, 1) (1, 3) = true :=
  ((can_connect_path_spec (pad_board (listPBoard [[1, 0, 1]])) (1, 1) (1, 3)).2
    (by decide) (by decide) (by decide) (by decide) (by decide) (by decide)).mpr
    ⟨[3, 3], by decide⟩

/-- The opposite of each ray direction. -/
def dflip : Fin 4 → Fin 4
  | 0 => 1
  | 1 => 0
  | 2 => 3
  | 3 => 2

theorem cadd_dflip (p : Cell) (d : Fin 4) : cadd (cadd p d) (dflip d) = p := by
  fin_cases d <;> simp [cadd, dflip, dirDelta]

theorem walk_reverse_flip (ds : List (Fin 4)) : ∀ p : Cell,
    walk (walk p ds) ((ds.map dflip).reverse) = p := by
  induction ds with
  | nil => intro p; rfl
  | cons d ds ih =>
    intro p
    rw [List.map_cons, List.reverse_cons, walk_cons, walk_append, ih (cadd p d)]
    show cadd (cadd p d) (dflip d) = p
    exact cadd_dflip p d

theorem dropLast_cons_cons (x y : Cell) (l : List Cell) :
    (x :: y :: l).dropLast = x :: (y :: l).dropLast := rfl

theorem walkCells_reverse_flip (ds : List (Fin 4)) : ∀ p : Cell,
    walkCells (walk p ds) ((ds.map dflip).reverse)
      = ((p :: walkCells p ds).dropLast).reverse := by
  induction ds with
  | nil => intro p; rfl
  | cons d ds ih =>
    intro p
    rw [List.map_cons, List.reverse_cons, walk_cons, walkCells_append, ih (cadd p d),
      walk_reverse_flip]
    show _ ++ [cadd (cadd p d) (dflip d)] = _
    rw [cadd_dflip]
    show ((cadd p d :: walkCells (cadd p d) ds).dropLast).reverse ++ [p]
      = ((p :: cadd p d :: walkCells (cadd p d) ds).dropLast).reverse
    rw [dropLast_cons_cons, List.reverse_cons]

theorem dirChanges_map_flip (ds : List (Fin 4)) :
    dirChanges (ds.map dflip) = dirChanges ds := by
  induction ds with
  | nil => rfl
  | cons d ds ih =>
    cases ds with
    | nil => rfl
    | cons e es =>
      have hm : List.map dflip (d :: e :: es) = dflip d :: dflip e :: List.map dflip es := rfl
      rw [hm, dirChanges_cons_cons, dirChanges_cons_cons]
      have hm2 : dflip e :: List.map dflip es = List.map dflip (e :: es) := rfl
      rw [hm2, ih]
      congr 1
      have hinj : dflip d = dflip e ↔ d = e := by
        constructor
        · intro h
          fin_cases d <;> fin_cases e <;> first | rfl | (exfalso; exact absurd h (by decide))
        · intro h; rw [h]
      by_cases hde : d = e
      · rw [if_pos hde, if_pos (hinj.mpr hde)]
      · rw [if_neg hde, if_neg (fun h => hde (hinj.mp h))]

theorem dirChanges_reverse (ds : List (Fin 4)) :
    dirChanges ds.reverse = dirChanges ds := by
  induction ds with
  | nil => rfl
  | cons d ds ih =>
    cases ds with
    | nil => rfl
    | cons e es =>
      rw [List.reverse_cons, dirChanges_append_cons _ d [] (by simp), ih,
        dirChanges_cons_cons]
      rw [List.getLast?_reverse]
      show dirChanges (e :: es) + (if some e = some d then 0 else 1) + 0
        = (if d = e then 0 else 1) + dirChanges (e :: es)
      by_cases hde : d = e
      · rw [if_pos (by rw [hde]), if_pos hde]
        omega
      · rw [if_neg (fun h => hde (Option.some_inj.mp h).symm), if_neg hde]
        omega

theorem dropLast_reverse_cell (l : List Cell) : l.reverse.dropLast = l.tail.reverse := by
  cases l with
  | nil => rfl
  | cons x xs =>
    rw [List.reverse_cons]
    simp

theorem IsConnPath_reverse (g : PBoard) (a b : Cell) (ds : List (Fin 4))
    (h : IsConnPath g a b ds) :
    IsConnPath g b a ((ds.map dflip).reverse) := by
  obtain ⟨hne, hwalk, hch, hmid⟩ := h
  have hWne : walkCells a ds ≠ [] := by
    intro hcontra
    have := congrArg List.length hcontra
    rw [walkCells_length] at this
    exact hne (List.length_eq_zero.mp this)
  refine ⟨by simp [hne], ?_, ?_, ?_⟩
  · rw [← hwalk, walk_reverse_flip]
  · rw [dirChanges_reverse, dirChanges_map_flip]
    exact hch
  · intro q hq
    rw [← hwalk, walkCells_reverse_flip, dropLast_reverse_cell, List.mem_reverse] at hq
    obtain ⟨c1, cs, hWeq⟩ : ∃ c1 cs, walkCells a ds = c1 :: cs := by
      cases hW : walkCells a ds with
      | nil => exact absurd hW hWne
      | cons x xs => exact ⟨x, xs, rfl⟩
    rw [hWeq, dropLast_cons_cons, List.tail_cons] at hq
    apply hmid
    rw [hWeq]
    exact hq

theorem bool_eq_of_true_iff {x y : Bool} (h : x = true ↔ y = true) : x = y := by
  cases x <;> cases y <;> simp_all

/-- Shared symmetry fact: reversing a connecting path (opposite directions,
reversed order) connects the endpoints the other way round. -/
theorem can_connect_comm (g : PBoard) (a b : Cell) :
    can_connect g a b = can_connect g b a := by
  apply bool_eq_of_true_iff
  rw [can_connect_iff, can_connect_iff]
  constructor
  · rintro ⟨hab, hA, hB, hva, hvb, heq, ds, hpath⟩
    exact ⟨fun h => hab h.symm, hB, hA, hvb, hva, heq.symm, _,
      IsConnPath_reverse g a b ds hpath⟩
  · rintro ⟨hab, hB, hA, hvb, hva, heq, ds, hpath⟩
    exact ⟨fun h => hab h.symm, hA, hB, hva, hvb, heq.symm, _,
      IsConnPath_reverse g b a ds hpath⟩

/-- C5: `can_connect(padded, a, b)` equals `can_connect(padded, b, a)` for
every padded board and every pair of cells (symmetry). -/
theorem can_connect_symm_spec (g : PBoard) (a b : Cell) :
    can_connect g a b = can_connect g b a :=
  can_connect_comm g a b

/-- `find_pair`: scan source cells `(r1, c1)` in row-major order, skip
non-positive tiles, scan candidate second cells `(r2, c2)` below or to the
right in the same order, skip mismatched values, and return the first pair
that connects on the padded board (coordinates shifted by the pad offset). -/
def find_pair (bd : PBoard) : Option (Cell × Cell) :=
  (List.range bd.rows).findSome? fun (r1 : Nat) =>
    (List.range bd.cols).findSome? fun (c1 : Nat) =>
      if bd.val (r1 : Int) (c1 : Int) ≤ 0 then none
      else
        (List.range' r1 (bd.rows - r1)).findSome? fun (r2 : Nat) =>
          (if r2 = r1 then List.range' (c1 + 1) (bd.cols - (c1 + 1))
           else List.range bd.cols).findSome? fun (c2 : Nat) =>
            if bd.val (r2 : Int) (c2 : Int) ≠ bd.val (r1 : Int) (c1 : Int) then none
            else if can_connect (pad_board bd)
                ((r1 : Int) + 1, (c1 : Int) + 1) ((r2 : Int) + 1, (c2 : Int) + 1) then
              some (((r1 : Int), (c1 : Int)), ((r2 : Int), (c2 : Int)))
            else none

/-- The flattened candidate enumeration of `find_pair`: ordered pairs
`((r1,c1),(r2,c2))` of in-bounds cells with `(r1,c1)` strictly before
`(r2,c2)` in row-major order, listed in scan order. -/
def scanPairs (bd : PBoard) : List (Cell × Cell) :=
  (List.range bd.rows).flatMap fun r1 =>
    (List.range bd.cols).flatMap fun c1 =>
      (List.range' r1 (bd.rows - r1)).flatMap fun r2 =>
        (if r2 = r1 then List.range' (c1 + 1) (bd.cols - (c1 + 1))
         else List.range bd.cols).map fun c2 =>
          ((((r1 : Nat) : Int), ((c1 : Nat) : Int)), (((r2 : Nat) : Int), ((c2 : Nat) : Int)))

/-- The acceptance test of the scan: a positive source tile, an equal
candidate tile, and a connecting padded pair. -/
def pairOK (bd : PBoard) (pr : Cell × Cell) : Bool :=
  decide (0 < bd.val pr.1.1 pr.1.2) &&
    decide (bd.val pr.2.1 pr.2.2 = bd.val pr.1.1 pr.1.2) &&
    can_connect (pad_board bd) (pr.1.1 + 1, pr.1.2 + 1) (pr.2.1 + 1, pr.2.2 + 1)

theorem find?_flatMap {α β : Type} (l : List α) (g : α → List β) (p : β → Bool) :
    (l.flatMap g).find? p = l.findSome? fun x => (g x).find? p := by
  induction l with
  | nil => rfl
  | cons x xs ih =>
    rw [List.flatMap_cons, List.find?_append, List.findSome?_cons]
    cases h : (g x).find? p with
    | none => rw [Option.none_or, ih]
    | some v => rw [Option.or_some]

theorem findSome?_congr {α β : Type} (l : List α) (f h : α → Option β)
    (hfh : ∀ x ∈ l, f x = h x) : l.findSome? f = l.findSome? h := by
  induction l with
  | nil => rfl
  | cons x xs ih =>
    rw [List.findSome?_cons, List.findSome?_cons, hfh x (List.mem_cons_self x xs),
      ih fun y hy => hfh y (List.mem_cons_of_mem x hy)]

theorem findSome?_guard_map {α β : Type} (l : List α) (f : α → β) (p : β → Bool) :
    (l.findSome? fun x => if p (f x) then some (f x) else none) = (l.map f).find? p := by
  induction l with
  | nil => rfl
  | cons x xs ih =>
    rw [List.map_cons, List.findSome?_cons]
    by_cases h : p (f x)
    · rw [if_pos h]
      simp [List.find?_cons, h]
    · rw [if_neg h, ih]
      have hfalse : p (f x) = false := by
        cases hpf : p (f x)
        · rfl
        · exact absurd hpf h
      simp [List.find?_cons, hfalse]

theorem pairOK_eq_true (bd : PBoard) (pr : Cell × Cell) :
    pairOK bd pr = true ↔
      0 < bd.val pr.1.1 pr.1.2 ∧ bd.val pr.2.1 pr.2.2 = bd.val pr.1.1 pr.1.2 ∧
        can_connect (pad_board bd) (pr.1.1 + 1, pr.1.2 + 1) (pr.2.1 + 1, pr.2.2 + 1)
          = true := by
  unfold pairOK
  rw [Bool.and_eq_true, Bool.and_eq_true, decide_eq_true_eq, decide_eq_true_eq]
  tauto

/-- The nested scan of `find_pair` is the first match over the flattened
row-major candidate list. -/
theorem find_pair_eq_scan (bd : PBoard) :
    find_pair bd = (scanPairs bd).find? (pairOK bd) := by
  unfold find_pair scanPairs
  rw [find?_flatMap]
  apply findSome?_congr
  intro r1 hr1
  rw [find?_flatMap]
  apply findSome?_congr
  intro c1 hc1
  by_cases ht : bd.val (r1 : Int) (c1 : Int) ≤ 0
  · rw [if_pos ht]
    symm
    rw [List.find?_eq_none]
    intro pr hpr
    rw [List.mem_flatMap] at hpr
    obtain ⟨r2, -, hpr⟩ := hpr
    rw [List.mem_map] at hpr
    obtain ⟨c2, -, rfl⟩ := hpr
    intro hok
    rw [pairOK_eq_true] at hok
    have : (0 : Int) < bd.val (r1 : Int) (c1 : Int) := hok.1
    omega
  · rw [if_neg ht]
    rw [find?_flatMap]
    apply findSome?_congr
    intro r2 hr2
    rw [← findSome?_guard_map]
    apply findSome?_congr
    intro c2 hc2
    by_cases hv : bd.val (r2 : Int) (c2 : Int) ≠ bd.val (r1 : Int) (c1 : Int)
    · rw [if_pos hv, if_neg]
      intro hok
      rw [pairOK_eq_true] at hok
      exact hv hok.2.1
    · rw [if_neg hv]
      push_neg at hv
      by_cases hcc : can_connect (pad_board bd)
          ((r1 : Int) + 1, (c1 : Int) + 1) ((r2 : Int) + 1, (c2 : Int) + 1) = true
      · rw [if_pos hcc, if_pos]
        rw [pairOK_eq_true]
        exact ⟨show (0 : Int) < bd.val (r1 : Int) (c1 : Int) by omega, hv, hcc⟩
      · rw [if_neg hcc, if_neg]
        intro hok
        rw [pairOK_eq_true] at hok
        exact hcc hok.2.2

theorem mem_scanPairs (bd : PBoard) (pr : Cell × Cell) :
    pr ∈ scanPairs bd ↔
      ∃ r1 c1 r2 c2 : Nat,
        pr = (((r1 : Int), (c1 : Int)), ((r2 : Int), (c2 : Int))) ∧
        r1 < bd.rows ∧ c1 < bd.cols ∧ r2 < bd.rows ∧ c2 < bd.cols ∧
        (r1 < r2 ∨ (r1 = r2 ∧ c1 < c2)) := by
  unfold scanPairs
  rw [List.mem_flatMap]
  constructor
  · rintro ⟨r1, hr1, h⟩
    rw [List.mem_flatMap] at h
    obtain ⟨c1, hc1, h⟩ := h
    rw [List.mem_flatMap] at h
    obtain ⟨r2, hr2, h⟩ := h
    rw [List.mem_range] at hr1 hc1
    rw [List.mem_range'_1] at hr2
    by_cases he : r2 = r1
    · rw [if_pos he] at h
      rw [List.mem_map] at h
      obtain ⟨c2, hc2, rfl⟩ := h
      rw [List.mem_range'_1] at hc2
      exact ⟨r1, c1, r2, c2, rfl, hr1, hc1, by omega, by omega, by omega⟩
    · rw [if_neg he] at h
      rw [List.mem_map] at h
      obtain ⟨c2, hc2, rfl⟩ := h
      rw [List.mem_range] at hc2
      exact ⟨r1, c1, r2, c2, rfl, hr1, hc1, by omega, hc2, by omega⟩
  · rintro ⟨r1, c1, r2, c2, rfl, h1, h2, h3, h4, h5⟩
    refine ⟨r1, List.mem_range.mpr h1, ?_⟩
    rw [List.mem_flatMap]
    refine ⟨c1, List.mem_range.mpr h2, ?_⟩
    rw [List.mem_flatMap]
    refine ⟨r2, List.mem_range'_1.mpr ⟨by omega, by omega⟩, ?_⟩
    by_cases he : r2 = r1
    · rw [if_pos he]
      apply List.mem_map_of_mem
      rw [List.mem_range'_1]
      omega
    · rw [if_neg he]
      exact List.mem_map_of_mem _ (List.mem_range.mpr h4)

/-- C6: `find_pair` scans deterministically, source cells row-major and
candidate second cells below-right, returning the first connecting pair;
in particular on `[[1,0,1],[2,0,2]]` it returns `((0,0),(0,2))`, never the
pair of `2`-valued cells. -/
theorem find_pair_scan_deterministic :
    (∀ bd : PBoard, find_pair bd = (scanPairs bd).find? (pairOK bd))
    ∧ find_pair (listPBoard [[1, 0, 1], [2, 0, 2]])
        = some (((0 : Int), (0 : Int)), ((0 : Int), (2 : Int))) := by
  refine ⟨find_pair_eq_scan, ?_⟩
  have hcc : can_connect (pad_board (listPBoard [[1, 0, 1], [2, 0, 2]]))
      (1, 1) (1, 3) = true :=
    (can_connect_iff _ (1, 1) (1, 3)).mpr
      ⟨by decide, by decide, by decide, by decide, by decide, by decide,
        [3, 3], by decide⟩
  rw [find_pair_eq_scan]
  have hscan : scanPairs (listPBoard [[1, 0, 1], [2, 0, 2]])
      = (((0 : Int), (0 : Int)), ((0 : Int), (1 : Int)))
        :: (((0 : Int), (0 : Int)), ((0 : Int), (2 : Int)))
        :: (scanPairs (listPBoard [[1, 0, 1], [2, 0, 2]])).drop 2 := by rfl
  have h1 : pairOK (listPBoard [[1, 0, 1], [2, 0, 2]])
      (((0 : Int), (0 : Int)), ((0 : Int), (1 : Int))) = false := by rfl
  have h2 : pairOK (listPBoard [[1, 0, 1], [2, 0, 2]])
      (((0 : Int), (0 : Int)), ((0 : Int), (2 : Int))) = true := by
    rw [pairOK_eq_true]
    exact ⟨by decide, by decide, hcc⟩
  rw [hscan, List.find?_cons, h1]
  simp only [Bool.false_eq_true, if_false]
  rw [List.find?_cons, h2]

theorem inB_cast (bd : PBoard) (r c : Nat) (hr : r < bd.rows) (hc : c < bd.cols) :
    inB bd ((r : Int), (c : Int)) := by
  unfold inB
  refine ⟨?_, ?_, ?_, ?_⟩
  · show (0 : Int) ≤ (r : Int)
    omega
  · show (r : Int) < (bd.rows : Int)
    omega
  · show (0 : Int) ≤ (c : Int)
    omega
  · show (c : Int) < (bd.cols : Int)
    omega

theorem scanPairs_mem_of_order (bd : PBoard) (x y : Cell) (hx : inB bd x)
    (hy : inB bd y) (hord : x.1 < y.1 ∨ (x.1 = y.1 ∧ x.2 < y.2)) :
    (x, y) ∈ scanPairs bd := by
  obtain ⟨hx1, hx2, hx3, hx4⟩ := hx
  obtain ⟨hy1, hy2, hy3, hy4⟩ := hy
  rw [mem_scanPairs]
  refine ⟨x.1.toNat, x.2.toNat, y.1.toNat, y.2.toNat, ?_, by omega, by omega, by omega,
    by omega, by omega⟩
  rw [Int.toNat_of_nonneg hx1, Int.toNat_of_nonneg hx3, Int.toNat_of_nonneg hy1,
    Int.toNat_of_nonneg hy3]

theorem scan_hit_of_pair (bd : PBoard) (p q : Cell) (hne : p ≠ q) (hp : inB bd p)
    (hq : inB bd q) (hv : 0 < bd.val p.1 p.2) (heq : bd.val p.1 p.2 = bd.val q.1 q.2)
    (hcc : can_connect (pad_board bd) (p.1 + 1, p.2 + 1) (q.1 + 1, q.2 + 1) = true) :
    ∃ pr ∈ scanPairs bd, pairOK bd pr = true := by
  have hccswap : can_connect (pad_board bd) (q.1 + 1, q.2 + 1) (p.1 + 1, p.2 + 1)
      = true := by
    rw [can_connect_comm]
    exact hcc
  rcases lt_trichotomy p.1 q.1 with h | h | h
  · refine ⟨(p, q), scanPairs_mem_of_order bd p q hp hq (Or.inl h), ?_⟩
    rw [pairOK_eq_true]
    exact ⟨hv, heq.symm, hcc⟩
  · rcases lt_trichotomy p.2 q.2 with h2 | h2 | h2
    · refine ⟨(p, q), scanPairs_mem_of_order bd p q hp hq (Or.inr ⟨h, h2⟩), ?_⟩
      rw [pairOK_eq_true]
      exact ⟨hv, heq.symm, hcc⟩
    · exact absurd (Prod.ext_iff.mpr ⟨h, h2⟩) hne
    · refine ⟨(q, p), scanPairs_mem_of_order bd q p hq hp (Or.inr ⟨h.symm, h2⟩), ?_⟩
      rw [pairOK_eq_true]
      exact ⟨show (0 : Int) < bd.val q.1 q.2 by omega, heq, hccswap⟩
  · refine ⟨(q, p), scanPairs_mem_of_order bd q p hq hp (Or.inl h), ?_⟩
    rw [pairOK_eq_true]
    exact ⟨show (0 : Int) < bd.val q.1 q.2 by omega, heq, hccswap⟩

/-- C7: `find_pair` returns none exactly when no pair of distinct in-bounds
cells with equal positive values is connectable on the padded board; and a
returned pair consists of distinct in-bounds cells with equal positive
values that `can_connect` accepts on the padded board. -/
theorem find_pair_none_spec (bd : PBoard) :
    (find_pair bd = none ↔
      ¬ ∃ p q : Cell, p ≠ q ∧ inB bd p ∧ inB bd q ∧ 0 < bd.val p.1 p.2 ∧
        bd.val p.1 p.2 = bd.val q.1 q.2 ∧
        can_connect (pad_board bd) (p.1 + 1, p.2 + 1) (q.1 + 1, q.2 + 1) = true)
    ∧ ∀ p q : Cell, find_pair bd = some (p, q) →
        p ≠ q ∧ inB bd p ∧ inB bd q ∧ 0 < bd.val p.1 p.2 ∧
          bd.val p.1 p.2 = bd.val q.1 q.2 ∧
          can_connect (pad_board bd) (p.1 + 1, p.2 + 1) (q.1 + 1, q.2 + 1) = true := by
  have hprop : ∀ pr : Cell × Cell, pr ∈ scanPairs bd → pairOK bd pr = true →
      pr.1 ≠ pr.2 ∧ inB bd pr.1 ∧ inB bd pr.2 ∧ 0 < bd.val pr.1.1 pr.1.2 ∧
        bd.val pr.1.1 pr.1.2 = bd.val pr.2.1 pr.2.2 ∧
        can_connect (pad_board bd) (pr.1.1 + 1, pr.1.2 + 1) (pr.2.1 + 1, pr.2.2 + 1)
          = true := by
    intro pr hmem hok
    rw [mem_scanPairs] at hmem
    obtain ⟨r1, c1, r2, c2, rfl, h1, h2, h3, h4, h5⟩ := hmem
    rw [pairOK_eq_true] at hok
    refine ⟨?_, ?_, ?_, hok.1, hok.2.1.symm, hok.2.2⟩
    · intro hcontra
      rw [Prod.mk.injEq] at hcontra
      omega
    · exact inB_cast bd r1 c1 h1 h2
    · exact inB_cast bd r2 c2 h3 h4
  constructor
  · constructor
    · intro hnone hex
      obtain ⟨p, q, hne, hp, hq, hv, heq, hcc⟩ := hex
      obtain ⟨pr, hmem, hok⟩ := scan_hit_of_pair bd p q hne hp hq hv heq hcc
      rw [find_pair_eq_scan, List.find?_eq_none] at hnone
      exact hnone pr hmem hok
    · intro hnex
      rw [find_pair_eq_scan, List.find?_eq_none]
      intro pr hmem hok
      exact hnex ⟨pr.1, pr.2, hprop pr hmem hok⟩
  · intro p q hsome
    rw [find_pair_eq_scan] at hsome
    exact hprop (p, q) (List.mem_of_find?_eq_some hsome) (List.find?_some hsome)

/-- RuntimeState: the deterministic runtime counters and trace fields kept
by the rescan controller (`bot/state.py`). -/
structure RState where
  move_count : Int
  consecutive_failures : Int
  last_full_rescan_move : Int
  rescan_requested : Bool
  last_rescan_reason : Option String
  last_event : String
  last_pair : Option (Cell × Cell)

/-- `init_runtime_state`. -/
def init_runtime_state : RState where
  move_count := 0
  consecutive_failures := 0
  last_full_rescan_move := 0
  rescan_requested := false
  last_rescan_reason := none
  last_event := "init"
  last_pair := none

/-- The configuration keys consumed by the rescan controller. -/
structure SConfig where
  full_rescan_every_n_moves : Int
  match_threshold : Rat

/-- The ordered trigger-reason list built by `should_full_rescan`:
periodic cadence, explicit failure request, then confidence checks. -/
def rescanReasons (s : RState) (confidence : List Rat) (cfg : SConfig) : List String :=
  (if 0 < s.move_count ∧
      cfg.full_rescan_every_n_moves ≤ s.move_count - s.last_full_rescan_move
   then ["periodic"] else [])
  ++ (if s.rescan_requested then ["failure_or_mismatch"] else [])
  ++ (if confidence.length = 0 then ["empty_confidence"]
      else if confidence.any fun q => q < cfg.match_threshold then ["low_confidence"]
      else [])

/-- `should_full_rescan`: returns the decision and the updated state (the
source mutates `state` in place). -/
def should_full_rescan (s : RState) (confidence : List Rat) (cfg : SConfig) :
    Bool × RState :=
  if rescanReasons s confidence cfg = [] then
    (false, { s with last_rescan_reason := none })
  else
    (true, { s with
      last_full_rescan_move := s.move_count
      rescan_requested := false
      last_rescan_reason :=
        some (String.intercalate "," (rescanReasons s confidence cfg))
      last_event := "full_rescan" })

/-- `apply_successful_move`. -/
def apply_successful_move (s : RState) (pair : Cell × Cell) : RState :=
  { s with
    move_count := s.move_count + 1
    consecutive_failures := 0
    last_pair := some pair
    last_event := "move_success"
    rescan_requested := false }

/-- `record_failure`. -/
def record_failure (s : RState) : RState :=
  { s with
    consecutive_failures := s.consecutive_failures + 1
    rescan_requested := true
    last_event := "failure" }

/-- C9: `apply_successful_move` increments `move_count`, zeroes
`consecutive_failures` regardless of its prior value, records the pair and
the `"move_success"` event, clears `rescan_requested`, and leaves
`last_full_rescan_move` and `last_rescan_reason` unchanged. -/
theorem apply_successful_move_spec (s : RState) (pair : Cell × Cell) :
    (apply_successful_move s pair).move_count = s.move_count + 1 ∧
    (apply_successful_move s pair).consecutive_failures = 0 ∧
    (apply_successful_move s pair).last_pair = some pair ∧
    (apply_successful_move s pair).last_event = "move_success" ∧
    (apply_successful_move s pair).rescan_requested = false ∧
    (apply_successful_move s pair).last_full_rescan_move = s.last_full_rescan_move ∧
    (apply_successful_move s pair).last_rescan_reason = s.last_rescan_reason :=
  ⟨rfl, rfl, rfl, rfl, rfl, rfl, rfl⟩

/-- Counterexample to C3 as stated: with an empty confidence map the
`"empty_confidence"` trigger fires on every call, so a second call with
unchanged inputs returns true again, not false. -/
theorem should_full_rescan_not_idempotent :
    (should_full_rescan init_runtime_state [] ⟨5, 0⟩).1 = true ∧
    (should_full_rescan
        (should_full_rescan init_runtime_state [] ⟨5, 0⟩).2 [] ⟨5, 0⟩).1 = true := by
  constructor <;> rfl

theorem should_full_rescan_false_of_nil (s : RState) (confidence : List Rat)
    (cfg : SConfig) (h : rescanReasons s confidence cfg = []) :
    (should_full_rescan s confidence cfg).1 = false := by
  unfold should_full_rescan
  rw [if_pos h]

/-- C3 amended: after a triggered rescan, a second call with the same
inputs returns false, provided the rescan cadence is at least one move, the
confidence map is non-empty and no confidence value is below the match
threshold (the confidence-based triggers re-fire otherwise). -/
theorem should_full_rescan_consumed (s : RState) (confidence : List Rat)
    (cfg : SConfig) (hn : 1 ≤ cfg.full_rescan_every_n_moves)
    (hconf : confidence ≠ [])
    (hhigh : ∀ q ∈ confidence, ¬ q < cfg.match_threshold)
    (h1 : (should_full_rescan s confidence cfg).1 = true) :
    (should_full_rescan (should_full_rescan s confidence cfg).2 confidence cfg).1
      = false := by
  have hs2 : (should_full_rescan s confidence cfg).2.move_count = s.move_count ∧
      (should_full_rescan s confidence cfg).2.last_full_rescan_move = s.move_count ∧
      (should_full_rescan s confidence cfg).2.rescan_requested = false := by
    unfold should_full_rescan at h1 ⊢
    by_cases hr : rescanReasons s confidence cfg = []
    · rw [if_pos hr] at h1
      simp at h1
    · rw [if_neg hr]
      exact ⟨rfl, rfl, rfl⟩
  obtain ⟨hm, hl, hrr⟩ := hs2
  have hany : ¬ ((confidence.any fun q => q < cfg.match_threshold) = true) := by
    intro hcontra
    rw [List.any_eq_true] at hcontra
    obtain ⟨q, hq, hlt⟩ := hcontra
    exact hhigh q hq (of_decide_eq_true hlt)
  have hreasons :
      rescanReasons (should_full_rescan s confidence cfg).2 confidence cfg = [] := by
    unfold rescanReasons
    rw [if_neg ?hper, if_neg ?hreq, if_neg ?hlen, if_neg hany]
    case hper =>
      intro hcontra
      rw [hm, hl] at hcontra
      omega
    case hreq =>
      rw [hrr]
      exact Bool.false_ne_true
    case hlen =>
      intro hcontra
      exact hconf (List.length_eq_zero.mp hcontra)
    rfl
  exact should_full_rescan_false_of_nil _ confidence cfg hreasons

/-- Witness for the amended C3: a failure-requested rescan is consumed. -/
theorem should_full_rescan_consumed_witness :
    (should_full_rescan
      (should_full_rescan { init_runtime_state with rescan_requested := true }
        [1] ⟨5, 0⟩).2 [1] ⟨5, 0⟩).1 = false :=
  should_full_rescan_consumed { init_runtime_state with rescan_requested := true }
    [1] ⟨5, 0⟩ (by decide) (by decide) (by decide) (by rfl)

/-- Witness for C7: on the single-cell board `[[1]]` the scan is empty, the
solver returns none, and hence no connectable pair exists. -/
theorem find_pair_none_spec_witness :
    ¬ ∃ p q : Cell, p ≠ q ∧ inB (listPBoard [[1]]) p ∧ inB (listPBoard [[1]]) q ∧
      0 < (listPBoard [[1]]).val p.1 p.2 ∧
      (listPBoard [[1]]).val p.1 p.2 = (listPBoard [[1]]).val q.1 q.2 ∧
      can_connect (pad_board (listPBoard [[1]]))
          (p.1 + 1, p.2 + 1) (q.1 + 1, q.2 + 1) = true :=
  (find_pair_none_spec (listPBoard [[1]])).1.mp (by rw [find_pair_eq_scan]; rfl)

/-- A grid cell key of the classifier, `(row, col)` as Python `tuple[int, int]`
with non-negative entries. -/
abbrev GCell := Nat × Nat

/--
Abstract image primitives used by `bot/classify.py`.  These wrap OpenCV
calls (template differencing, hue masks, grayscale variance,
`cv2.matchTemplate` with `TM_CCOEFF_NORMED`, cell cropping), which are
external library code, not code of this repository; the embedding treats
them as unconstrained score functions over an abstract `Frame` type.
-/
structure ImgOps (Frame : Type) where
  size : Frame → Nat
  scoreSim : Frame → Frame → Rat
  pinkRatio : Frame → Rat
  textureStd : Frame → Rat
  prep : Frame → Frame
  matchT : Frame → Frame → Rat
  crop : Frame → Nat → Nat → Frame

/-- The configuration keys consumed by the classifier. -/
structure CConfig where
  rows : Nat
  cols : Nat
  block_match_threshold : Rat
  empty_pink_ratio_threshold : Rat
  empty_texture_threshold : Rat
  tile_similarity_threshold : Rat

/-- The unresolved-cell sentinel `_UNRESOLVED_TILE = -2`. -/
def UNRESOLVED_TILE : Int := -2

/-- `classify_block_or_empty`: first-pass classifier returning `-1` for a
block, `0` for background/empty, and the unresolved sentinel otherwise,
together with the reported score. -/
def classify_block_or_empty {Frame : Type} (ops : ImgOps Frame)
    (cell_img block_template background_template : Frame)
    (config : CConfig) : Int × Rat :=
  if ops.size cell_img = 0 then (0, 0)
  else if config.block_match_threshold ≤ ops.scoreSim cell_img block_template then
    (-1, ops.scoreSim cell_img block_template)
  else if config.empty_pink_ratio_threshold ≤ ops.pinkRatio cell_img ∧
      ops.textureStd cell_img ≤ config.empty_texture_threshold then
    (0, ops.pinkRatio cell_img)
  else
    (UNRESOLVED_TILE, max (ops.scoreSim cell_img block_template) (ops.pinkRatio cell_img))

/-- Strict lexicographic order on cell keys (Python tuple `<`). -/
def cellLT (a b : GCell) : Bool :=
  decide (a.1 < b.1 ∨ (a.1 = b.1 ∧ a.2 < b.2))

/-- Non-strict lexicographic order on cell keys. -/
def cellLE (a b : GCell) : Bool :=
  decide (a.1 < b.1 ∨ (a.1 = b.1 ∧ a.2 ≤ b.2))

/-- Insert into a le-sorted list. -/
def insertSortedBy {α : Type} (le : α → α → Bool) (x : α) : List α → List α
  | [] => [x]
  | y :: ys => if le x y then x :: y :: ys else y :: insertSortedBy le x ys

/-- Insertion sort, modelling Python's `sorted` (any correct comparison
sort produces the same list here). -/
def sortBy {α : Type} (le : α → α → Bool) : List α → List α
  | [] => []
  | x :: xs => insertSortedBy le x (sortBy le xs)

/-- Union-find `find` without path compression; compression only
re-points nodes along the chain and never changes the root, so the root
structure the grouping depends on is identical.  `fuel` bounds the chain
walk (the parent forest has no cycles). -/
def ufFind (parent : List Nat) : Nat → Nat → Nat
  | 0, i => i
  | fuel + 1, i =>
    if parent.getD i i = i then i else ufFind parent fuel (parent.getD i i)

/-- Union-find `union`: attach the root of `b_idx` below the root of
`a_idx` when they differ. -/
def ufUnion (parent : List Nat) (a_idx b_idx : Nat) : List Nat :=
  if ufFind parent parent.length a_idx = ufFind parent parent.length b_idx then parent
  else parent.set (ufFind parent parent.length b_idx) (ufFind parent parent.length a_idx)

/-- Index pairs `i < j < n` in the nested loop order of the source. -/
def pairList (n : Nat) : List (Nat × Nat) :=
  (List.range n).flatMap fun i =>
    (List.range' (i + 1) (n - (i + 1))).map fun j => (i, j)

/-- The prepared image of a cell key (dictionary access plus
`_prepare_for_match`). -/
def prepImg {Frame : Type} [Inhabited Frame] (ops : ImgOps Frame)
    (cell_imgs : List (GCell × Frame)) (c : GCell) : Frame :=
  ops.prep ((cell_imgs.lookup c).getD default)

/-- `_pair_similarity` of two cell keys, in dictionary-image terms. -/
def pairSimImgs {Frame : Type} [Inhabited Frame] (ops : ImgOps Frame)
    (cell_imgs : List (GCell × Frame)) (a b : GCell) : Rat :=
  ops.matchT (prepImg ops cell_imgs a) (prepImg ops cell_imgs b)

/-- The sorted key list `cells = sorted(cell_imgs.keys())`. -/
def cellsOf {Frame : Type} (cell_imgs : List (GCell × Frame)) : List GCell :=
  sortBy cellLE (cell_imgs.map fun e => e.1)

/-- The similarity of the cells at index pair `(i, j)`. -/
def simAt {Frame : Type} [Inhabited Frame] (ops : ImgOps Frame)
    (cell_imgs : List (GCell × Frame)) (i j : Nat) : Rat :=
  pairSimImgs ops cell_imgs ((cellsOf cell_imgs).getD i (0, 0))
    ((cellsOf cell_imgs).getD j (0, 0))

/-- The `pair_scores` dictionary: every `i < j` key pair with its
similarity, in loop order. -/
def pairScoresOf {Frame : Type} [Inhabited Frame] (ops : ImgOps Frame)
    (cell_imgs : List (GCell × Frame)) : List ((GCell × GCell) × Rat) :=
  (pairList (cellsOf cell_imgs).length).map fun ij =>
    (((cellsOf cell_imgs).getD ij.1 (0, 0), (cellsOf cell_imgs).getD ij.2 (0, 0)),
      simAt ops cell_imgs ij.1 ij.2)

/-- The union-find parent array after all threshold unions. -/
def parentOf {Frame : Type} [Inhabited Frame] (ops : ImgOps Frame)
    (cell_imgs : List (GCell × Frame)) (config : CConfig) : List Nat :=
  (pairList (cellsOf cell_imgs).length).foldl
    (fun parent ij =>
      if config.tile_similarity_threshold ≤ simAt ops cell_imgs ij.1 ij.2 then
        ufUnion parent ij.1 ij.2
      else parent)
    (List.range (cellsOf cell_imgs).length)

/-- The union-find root of a cell key. -/
def rootOf {Frame : Type} [Inhabited Frame] (ops : ImgOps Frame)
    (cell_imgs : List (GCell × Frame)) (config : CConfig) (c : GCell) : Nat :=
  ufFind (parentOf ops cell_imgs config) (parentOf ops cell_imgs config).length
    ((cellsOf cell_imgs).indexOf c)

/-- Distinct values in order of first appearance (Python dict insertion
order of `groups.setdefault`). -/
def distinctRoots : List Nat → List Nat
  | [] => []
  | r :: rs => r :: (distinctRoots rs).filter fun x => x ≠ r

/-- The groups in first-appearance order, each listing its member cells in
`cells` order. -/
def groupsOfRoot (cells : List GCell) (root : GCell → Nat) : List (List GCell) :=
  (distinctRoots (cells.map root)).map fun r => cells.filter fun c => root c = r

/-- Group comparison key: the lexicographically smallest member
(`key=lambda g: g[0]` after per-group sorting). -/
def groupLE (a b : List GCell) : Bool :=
  cellLE (a.headD (0, 0)) (b.headD (0, 0))

/-- `sorted_groups`: each group sorted, groups ordered by smallest cell. -/
def sortedGroupsOf {Frame : Type} [Inhabited Frame] (ops : ImgOps Frame)
    (cell_imgs : List (GCell × Frame)) (config : CConfig) : List (List GCell) :=
  sortBy groupLE
    ((groupsOfRoot (cellsOf cell_imgs) (rootOf ops cell_imgs config)).map (sortBy cellLE))

/-- `float(np.mean(sims)) if sims else 1.0`. -/
def ratMean (l : List Rat) : Rat :=
  if l.length = 0 then 1 else l.sum / (l.length : Rat)

/-- `pair_scores.get((a, b), 0.0)`. -/
def lookupScore (ps : List ((GCell × GCell) × Rat)) (a b : GCell) : Rat :=
  ((ps.find? fun e => e.1 = (a, b)).map fun e => e.2).getD 0

/-- One member's confidence: the mean of its stored pairwise similarities
with the other group members, keys ordered as the source orders them. -/
def memberConf (ps : List ((GCell × GCell) × Rat)) (group_cells : List GCell)
    (c : GCell) : Rat :=
  ratMean ((group_cells.filter fun o => o ≠ c).map fun o =>
    if cellLT c o then lookupScore ps c o else lookupScore ps o c)

/-- The per-group id/confidence assignment loop: odd or singleton groups
get id `0` and confidence `0.0`; even groups of size at least two share the
next fresh id and get their mean pairwise similarity as confidence. -/
def assignGroups (ps : List ((GCell × GCell) × Rat)) :
    Nat → List (List GCell) → List (GCell × Int) × List (GCell × Rat)
  | _, [] => ([], [])
  | next_id, group_cells :: rest =>
    if group_cells.length < 2 ∨ group_cells.length % 2 ≠ 0 then
      (group_cells.map (fun c => (c, (0 : Int))) ++ (assignGroups ps next_id rest).1,
        group_cells.map (fun c => (c, (0 : Rat))) ++ (assignGroups ps next_id rest).2)
    else
      (group_cells.map (fun c => (c, (next_id : Int)))
          ++ (assignGroups ps (next_id + 1) rest).1,
        group_cells.map (fun c => (c, memberConf ps group_cells c))
          ++ (assignGroups ps (next_id + 1) rest).2)

/-- `group_tiles_by_similarity`: returns the id and confidence
dictionaries (as association lists in assignment order). -/
def group_tiles_by_similarity {Frame : Type} [Inhabited Frame] (ops : ImgOps Frame)
    (cell_imgs : List (GCell × Frame)) (config : CConfig) :
    List (GCell × Int) × List (GCell × Rat) :=
  if cell_imgs.length = 0 then ([], [])
  else assignGroups (pairScoresOf ops cell_imgs) 1 (sortedGroupsOf ops cell_imgs config)

/-- The first-pass result for one board position. -/
def firstPass {Frame : Type} (ops : ImgOps Frame)
    (frame block_template background_template : Frame) (config : CConfig)
    (row col : Nat) : Int × Rat :=
  classify_block_or_empty ops (ops.crop frame row col) block_template
    background_template config

/-- The unresolved cells of the first pass, with their crops, in row-major
(dictionary insertion) order. -/
def unresolvedOf {Frame : Type} (ops : ImgOps Frame)
    (frame block_template background_template : Frame) (config : CConfig) :
    List (GCell × Frame) :=
  (List.range config.rows).flatMap fun row =>
    (List.range config.cols).flatMap fun col =>
      if (firstPass ops frame block_template background_template config row col).1
          = UNRESOLVED_TILE then
        [((row, col), ops.crop frame row col)]
      else []

/--
`classify_board`: classify every cell with the two-anchor first pass, then
group the unresolved cells by pairwise similarity.  A first-pass cell keeps
its id and score; an unresolved cell takes its grouped id and confidence
(the zero-initialised array entry, i.e. `0`, if the grouping assigned it
nothing — `group_tiles_by_similarity` in fact assigns every unresolved
cell, and only unresolved cells, see `mem_assignGroups_keys`).
-/
def classify_board {Frame : Type} [Inhabited Frame] (ops : ImgOps Frame)
    (frame block_template background_template : Frame) (config : CConfig) :
    List (List Int) × List (List Rat) :=
  ((List.range config.rows).map fun row =>
      (List.range config.cols).map fun col =>
        if (firstPass ops frame block_template background_template config row col).1
            = UNRESOLVED_TILE then
          (((group_tiles_by_similarity ops
              (unresolvedOf ops frame block_template background_template config)
              config).1.lookup (row, col)).getD 0)
        else (firstPass ops frame block_template background_template config row col).1,
    (List.range config.rows).map fun row =>
      (List.range config.cols).map fun col =>
        if (firstPass ops frame block_template background_template config row col).1
            = UNRESOLVED_TILE then
          (((group_tiles_by_similarity ops
              (unresolvedOf ops frame block_template background_template config)
              config).2.lookup (row, col)).getD 0)
        else (firstPass ops frame block_template background_template config row col).2)

/-- C8: a zero-area cell crop always classifies as empty/unknown with
confidence `0.0`; the total embedding never raises. -/
theorem classify_block_or_empty_zero_area {Frame : Type} (ops : ImgOps Frame)
    (cell_img block_template background_template : Frame) (config : CConfig)
    (h : ops.size cell_img = 0) :
    classify_block_or_empty ops cell_img block_template background_template config
      = (0, 0) := by
  unfold classify_block_or_empty
  rw [if_pos h]

/-- Concrete image primitives over `Nat` handles whose cells are zero-area. -/
def opsZeroArea : ImgOps Nat where
  size := fun _ => 0
  scoreSim := fun _ _ => 0
  pinkRatio := fun _ => 0
  textureStd := fun _ => 0
  prep := id
  matchT := fun _ _ => 0
  crop := fun _ _ _ => 0

/-- Witness for C8. -/
theorem classify_block_or_empty_zero_area_witness :
    classify_block_or_empty opsZeroArea 0 0 0 ⟨1, 1, 1, 1, 0, 1⟩ = (0, 0) :=
  classify_block_or_empty_zero_area opsZeroArea 0 0 0 ⟨1, 1, 1, 1, 0, 1⟩ rfl

theorem classify_block_or_empty_fst_cases {Frame : Type} (ops : ImgOps Frame)
    (cell_img bt bgt : Frame) (config : CConfig) :
    (classify_block_or_empty ops cell_img bt bgt config).1 = 0 ∨
    (classify_block_or_empty ops cell_img bt bgt config).1 = -1 ∨
    (classify_block_or_empty ops cell_img bt bgt config).1 = UNRESOLVED_TILE := by
  unfold classify_block_or_empty
  split_ifs <;> simp

theorem assignGroups_id_cases (ps : List ((GCell × GCell) × Rat)) :
    ∀ (gs : List (List GCell)) (nid : Nat) (c : GCell) (i : Int),
      (c, i) ∈ (assignGroups ps nid gs).1 → i = 0 ∨ (nid : Int) ≤ i := by
  intro gs
  induction gs with
  | nil =>
    intro nid c i h
    cases h
  | cons g rest ih =>
    intro nid c i h
    unfold assignGroups at h
    by_cases hodd : g.length < 2 ∨ g.length % 2 ≠ 0
    · rw [if_pos hodd] at h
      rw [List.mem_append] at h
      rcases h with h | h
      · rw [List.mem_map] at h
        obtain ⟨c', -, heq⟩ := h
        left
        have := congrArg Prod.snd heq
        simp at this
        omega
      · exact ih nid c i h
    · rw [if_neg hodd] at h
      rw [List.mem_append] at h
      rcases h with h | h
      · rw [List.mem_map] at h
        obtain ⟨c', -, heq⟩ := h
        right
        have := congrArg Prod.snd heq
        simp at this
        omega
      · rcases ih (nid + 1) c i h with h0 | hge
        · exact Or.inl h0
        · right
          omega

theorem mem_of_lookup_some {α β : Type} [BEq α] [LawfulBEq α] {l : List (α × β)}
    {k : α} {b : β} (h : l.lookup k = some b) : (k, b) ∈ l := by
  rw [List.lookup_eq_some_iff] at h
  obtain ⟨l₁, l₂, rfl, -⟩ := h
  exact List.mem_append_right _ (List.mem_cons_self _ _)

/-- The grouping only assigns ids to cells it was given. -/
theorem mem_assignGroups_keys (ps : List ((GCell × GCell) × Rat)) :
    ∀ (gs : List (List GCell)) (nid : Nat) (c : GCell) (i : Int),
      (c, i) ∈ (assignGroups ps nid gs).1 → ∃ g ∈ gs, c ∈ g := by
  intro gs
  induction gs with
  | nil =>
    intro nid c i h
    cases h
  | cons g rest ih =>
    intro nid c i h
    unfold assignGroups at h
    by_cases hodd : g.length < 2 ∨ g.length % 2 ≠ 0
    · rw [if_pos hodd, List.mem_append] at h
      rcases h with h | h
      · rw [List.mem_map] at h
        obtain ⟨c', hc', heq⟩ := h
        have := congrArg Prod.fst heq
        simp at this
        exact ⟨g, List.mem_cons_self _ _, this ▸ hc'⟩
      · obtain ⟨g', hg', hc⟩ := ih nid c i h
        exact ⟨g', List.mem_cons_of_mem _ hg', hc⟩
    · rw [if_neg hodd, List.mem_append] at h
      rcases h with h | h
      · rw [List.mem_map] at h
        obtain ⟨c', hc', heq⟩ := h
        have := congrArg Prod.fst heq
        simp at this
        exact ⟨g, List.mem_cons_self _ _, this ▸ hc'⟩
      · obtain ⟨g', hg', hc⟩ := ih (nid + 1) c i h
        exact ⟨g', List.mem_cons_of_mem _ hg', hc⟩

/-- C10: every value of the Board returned by `classify_board` is `-1`,
`0`, or positive; the internal unresolved sentinel `-2` never appears. -/
theorem classify_board_no_sentinel {Frame : Type} [Inhabited Frame]
    (ops : ImgOps Frame) (frame block_template background_template : Frame)
    (config : CConfig) :
    ∀ row ∈ (classify_board ops frame block_template background_template config).1,
      ∀ v ∈ row, (v = -1 ∨ v = 0 ∨ 0 < v) ∧ v ≠ UNRESOLVED_TILE := by
  intro row hrow v hv
  unfold classify_board at hrow
  rw [List.mem_map] at hrow
  obtain ⟨r, -, rfl⟩ := hrow
  rw [List.mem_map] at hv
  obtain ⟨c, -, rfl⟩ := hv
  by_cases hu : (firstPass ops frame block_template background_template config r c).1
      = UNRESOLVED_TILE
  · rw [if_pos hu]
    cases hl : (group_tiles_by_similarity ops
        (unresolvedOf ops frame block_template background_template config)
        config).1.lookup (r, c) with
    | none =>
      show (((0 : Int) = -1 ∨ (0 : Int) = 0 ∨ 0 < (0 : Int)) ∧
        (0 : Int) ≠ UNRESOLVED_TILE)
      refine ⟨Or.inr (Or.inl rfl), ?_⟩
      unfold UNRESOLVED_TILE
      decide
    | some i =>
      have hmem := mem_of_lookup_some hl
      unfold group_tiles_by_similarity at hmem
      split_ifs at hmem with hemp
      · cases hmem
      · have := assignGroups_id_cases _ _ 1 (r, c) i hmem
        show (i = -1 ∨ i = 0 ∨ 0 < i) ∧ i ≠ UNRESOLVED_TILE
        unfold UNRESOLVED_TILE
        constructor
        · rcases this with h | h
          · exact Or.inr (Or.inl h)
          · right; right; omega
        · rcases this with h | h <;> omega
  · rw [if_neg hu]
    unfold firstPass at hu ⊢
    rcases classify_block_or_empty_fst_cases ops
        (ops.crop frame r c) block_template background_template config with h | h | h
    · refine ⟨Or.inr (Or.inl h), ?_⟩
      rw [h]
      unfold UNRESOLVED_TILE
      decide
    · refine ⟨Or.inl h, ?_⟩
      rw [h]
      unfold UNRESOLVED_TILE
      decide
    · exact absurd h hu

/-- Concrete primitives for which every cell classifies as a block. -/
def opsAllBlock : ImgOps Nat where
  size := fun _ => 1
  scoreSim := fun _ _ => 1
  pinkRatio := fun _ => 0
  textureStd := fun _ => 0
  prep := id
  matchT := fun _ _ => 0
  crop := fun _ _ _ => 0

/-- Witness for C10 on a one-cell all-block board. -/
theorem classify_board_no_sentinel_witness :
    (((-1 : Int) = -1 ∨ (-1 : Int) = 0 ∨ 0 < (-1 : Int)) ∧
      ((-1 : Int) ≠ UNRESOLVED_TILE)) :=
  classify_board_no_sentinel opsAllBlock 0 0 0 ⟨1, 1, 0, 1, 0, 1⟩
    [-1] (by decide) (-1) (by decide)

/-- The documented ranges of the image primitives: absolute-difference
similarity and pink-pixel ratio lie in `[0,1]`, and normalised
cross-correlation (`TM_CCOEFF_NORMED`) lies in `[-1,1]`. -/
def OpsBounded {Frame : Type} (ops : ImgOps Frame) : Prop :=
  (∀ a b, 0 ≤ ops.scoreSim a b ∧ ops.scoreSim a b ≤ 1) ∧
  (∀ a, 0 ≤ ops.pinkRatio a ∧ ops.pinkRatio a ≤ 1) ∧
  (∀ a b, -1 ≤ ops.matchT a b ∧ ops.matchT a b ≤ 1)

theorem list_sum_le (l : List Rat) (hi : Rat) (h : ∀ x ∈ l, x ≤ hi) :
    l.sum ≤ (l.length : Rat) * hi := by
  induction l with
  | nil => simp
  | cons x xs ih =>
    rw [List.sum_cons, List.length_cons]
    push_cast
    have h1 : x ≤ hi := h x (List.mem_cons_self _ _)
    have h2 := ih fun y hy => h y (List.mem_cons_of_mem _ hy)
    nlinarith [h1, h2]

theorem le_list_sum (l : List Rat) (lo : Rat) (h : ∀ x ∈ l, lo ≤ x) :
    (l.length : Rat) * lo ≤ l.sum := by
  induction l with
  | nil => simp
  | cons x xs ih =>
    rw [List.sum_cons, List.length_cons]
    push_cast
    have h1 : lo ≤ x := h x (List.mem_cons_self _ _)
    have h2 := ih fun y hy => h y (List.mem_cons_of_mem _ hy)
    nlinarith [h1, h2]

theorem ratMean_bounds (l : List Rat) (lo hi : Rat) (hlo1 : lo ≤ 1) (hhi1 : 1 ≤ hi)
    (hb : ∀ x ∈ l, lo ≤ x ∧ x ≤ hi) : lo ≤ ratMean l ∧ ratMean l ≤ hi := by
  unfold ratMean
  split_ifs with h
  · exact ⟨hlo1, hhi1⟩
  · have hlen : (0 : Rat) < (l.length : Rat) := by
      have : 0 < l.length := Nat.pos_of_ne_zero h
      exact_mod_cast this
    constructor
    · rw [le_div_iff₀ hlen, mul_comm]
      exact le_list_sum l lo fun x hx => (hb x hx).1
    · rw [div_le_iff₀ hlen, mul_comm]
      exact list_sum_le l hi fun x hx => (hb x hx).2

theorem classify_block_or_empty_snd_bounds {Frame : Type} (ops : ImgOps Frame)
    (hb : OpsBounded ops) (cell_img bt bgt : Frame) (config : CConfig) :
    0 ≤ (classify_block_or_empty ops cell_img bt bgt config).2 ∧
      (classify_block_or_empty ops cell_img bt bgt config).2 ≤ 1 := by
  obtain ⟨hs, hp, -⟩ := hb
  unfold classify_block_or_empty
  split_ifs
  · constructor <;> norm_num
  · exact hs cell_img bt
  · exact hp cell_img
  · constructor
    · exact le_trans (hs cell_img bt).1 (le_max_left _ _)
    · exact max_le (hs cell_img bt).2 (hp cell_img).2

theorem pairScoresOf_bounds {Frame : Type} [Inhabited Frame] (ops : ImgOps Frame)
    (hb : OpsBounded ops) (cell_imgs : List (GCell × Frame)) :
    ∀ e ∈ pairScoresOf ops cell_imgs, -1 ≤ e.2 ∧ e.2 ≤ 1 := by
  intro e he
  unfold pairScoresOf at he
  rw [List.mem_map] at he
  obtain ⟨ij, -, rfl⟩ := he
  exact hb.2.2 _ _

theorem lookupScore_bounds (ps : List ((GCell × GCell) × Rat))
    (hps : ∀ e ∈ ps, -1 ≤ e.2 ∧ e.2 ≤ 1) (a b : GCell) :
    -1 ≤ lookupScore ps a b ∧ lookupScore ps a b ≤ 1 := by
  unfold lookupScore
  cases hf : ps.find? fun e => e.1 = (a, b) with
  | none => norm_num
  | some e =>
    have := hps e (List.mem_of_find?_eq_some hf)
    simpa using this

theorem memberConf_bounds (ps : List ((GCell × GCell) × Rat))
    (hps : ∀ e ∈ ps, -1 ≤ e.2 ∧ e.2 ≤ 1) (g : List GCell) (c : GCell) :
    -1 ≤ memberConf ps g c ∧ memberConf ps g c ≤ 1 := by
  unfold memberConf
  apply ratMean_bounds _ _ _ (by norm_num) (by norm_num)
  intro x hx
  rw [List.mem_map] at hx
  obtain ⟨o, -, rfl⟩ := hx
  split_ifs
  · exact lookupScore_bounds ps hps c o
  · exact lookupScore_bounds ps hps o c

theorem assignGroups_conf_bounds (ps : List ((GCell × GCell) × Rat))
    (hps : ∀ e ∈ ps, -1 ≤ e.2 ∧ e.2 ≤ 1) :
    ∀ (gs : List (List GCell)) (nid : Nat) (c : GCell) (v : Rat),
      (c, v) ∈ (assignGroups ps nid gs).2 → -1 ≤ v ∧ v ≤ 1 := by
  intro gs
  induction gs with
  | nil =>
    intro nid c v h
    cases h
  | cons g rest ih =>
    intro nid c v h
    unfold assignGroups at h
    by_cases hodd : g.length < 2 ∨ g.length % 2 ≠ 0
    · rw [if_pos hodd, List.mem_append] at h
      rcases h with h | h
      · rw [List.mem_map] at h
        obtain ⟨c', -, heq⟩ := h
        have := congrArg Prod.snd heq
        simp at this
        rw [← this]
        norm_num
      · exact ih nid c v h
    · rw [if_neg hodd, List.mem_append] at h
      rcases h with h | h
      · rw [List.mem_map] at h
        obtain ⟨c', -, heq⟩ := h
        have := congrArg Prod.snd heq
        simp at this
        rw [← this]
        exact memberConf_bounds ps hps g c'
      · exact ih (nid + 1) c v h

/-- C2 amended: `classify_board` returns a Board and a ConfidenceMap of
shape exactly `rows × cols`, and — with the image primitives in their
documented ranges (`OpsBounded`) — every confidence value lies in
`[-1, 1]`.  The grouped confidences are means of normalised
cross-correlation scores and can be negative, so `[0, 1]` does not hold. -/
theorem classify_board_shape_and_range {Frame : Type} [Inhabited Frame]
    (ops : ImgOps Frame) (hb : OpsBounded ops)
    (frame block_template background_template : Frame) (config : CConfig)
    (hr : 0 < config.rows) (hc : 0 < config.cols) :
    ((classify_board ops frame block_template background_template config).1.length
        = config.rows ∧
      ∀ row ∈ (classify_board ops frame block_template background_template config).1,
        row.length = config.cols) ∧
    ((classify_board ops frame block_template background_template config).2.length
        = config.rows ∧
      ∀ row ∈ (classify_board ops frame block_template background_template config).2,
        row.length = config.cols) ∧
    (∀ row ∈ (classify_board ops frame block_template background_template config).2,
      ∀ v ∈ row, -1 ≤ v ∧ v ≤ 1) := by
  refine ⟨⟨?_, ?_⟩, ⟨?_, ?_⟩, ?_⟩
  · unfold classify_board
    rw [List.length_map, List.length_range]
  · intro row hrow
    unfold classify_board at hrow
    rw [List.mem_map] at hrow
    obtain ⟨r, -, rfl⟩ := hrow
    rw [List.length_map, List.length_range]
  · unfold classify_board
    rw [List.length_map, List.length_range]
  · intro row hrow
    unfold classify_board at hrow
    rw [List.mem_map] at hrow
    obtain ⟨r, -, rfl⟩ := hrow
    rw [List.length_map, List.length_range]
  · intro row hrow v hv
    unfold classify_board at hrow
    rw [List.mem_map] at hrow
    obtain ⟨r, -, rfl⟩ := hrow
    rw [List.mem_map] at hv
    obtain ⟨c, -, rfl⟩ := hv
    by_cases hu : (firstPass ops frame block_template background_template config r c).1
        = UNRESOLVED_TILE
    · rw [if_pos hu]
      cases hl : (group_tiles_by_similarity ops
          (unresolvedOf ops frame block_template background_template config)
          config).2.lookup (r, c) with
      | none =>
        show (-1 : Rat) ≤ (0 : Rat) ∧ (0 : Rat) ≤ 1
        constructor <;> norm_num
      | some v =>
        have hmem := mem_of_lookup_some hl
        unfold group_tiles_by_similarity at hmem
        split_ifs at hmem with hemp
        · cases hmem
        · exact assignGroups_conf_bounds _
            (pairScoresOf_bounds ops hb _) _ 1 (r, c) v hmem
    · rw [if_neg hu]
      have := classify_block_or_empty_snd_bounds ops hb
        (ops.crop frame r c) block_template background_template config
      unfold firstPass
      constructor
      · linarith [this.1]
      · exact this.2

/-- Witness for the amended C2 on a one-cell all-block board. -/
theorem classify_board_shape_and_range_witness :
    ((classify_board opsAllBlock 0 0 0 ⟨1, 1, 0, 1, 0, 1⟩).1.length = 1 ∧
      ∀ row ∈ (classify_board opsAllBlock 0 0 0 ⟨1, 1, 0, 1, 0, 1⟩).1,
        row.length = 1) ∧
    ((classify_board opsAllBlock 0 0 0 ⟨1, 1, 0, 1, 0, 1⟩).2.length = 1 ∧
      ∀ row ∈ (classify_board opsAllBlock 0 0 0 ⟨1, 1, 0, 1, 0, 1⟩).2,
        row.length = 1) ∧
    (∀ row ∈ (classify_board opsAllBlock 0 0 0 ⟨1, 1, 0, 1, 0, 1⟩).2,
      ∀ v ∈ row, -1 ≤ v ∧ v ≤ 1) :=
  classify_board_shape_and_range opsAllBlock
    ⟨fun a b => ⟨by show (0 : Rat) ≤ 1; norm_num, by show (1 : Rat) ≤ 1; norm_num⟩,
      fun a => ⟨by show (0 : Rat) ≤ 0; norm_num, by show (0 : Rat) ≤ 1; norm_num⟩,
      fun a b => ⟨by show (-1 : Rat) ≤ 0; norm_num, by show (0 : Rat) ≤ 1; norm_num⟩⟩
    0 0 0 ⟨1, 1, 0, 1, 0, 1⟩ (by decide) (by decide)

/-- Image primitives realising `TM_CCOEFF_NORMED` scores `±1` between the
four tiles of a `1 × 4` board (a perfectly anticorrelated pair of images
scores `-1`); every score is inside the documented `[-1, 1]` range. -/
def cexOps : ImgOps Nat where
  size := fun _ => 1
  scoreSim := fun _ _ => 0
  pinkRatio := fun _ => 0
  textureStd := fun _ => 0
  prep := fun f => f
  matchT := fun a b =>
    if a = 0 ∧ b = 1 then 1
    else if a = 0 ∧ b = 2 then 1
    else if a = 1 ∧ b = 3 then 1
    else -1
  crop := fun _ _ col => col

/-- A `1 × 4` configuration for the counterexample. -/
def cexCfg : CConfig := ⟨1, 4, 1, 1, 0, 1⟩

/-- The unresolved cells the first pass produces for `cexOps`/`cexCfg`. -/
def cexUnres : List (GCell × Nat) :=
  [((0, 0), 0), ((0, 1), 1), ((0, 2), 2), ((0, 3), 3)]

/-- The single similarity group of the counterexample. -/
def cexGroup : List GCell := [(0, 0), (0, 1), (0, 2), (0, 3)]

/-- Counterexample to C2 as stated: all four cells are grouped together
(similarities `(0,1)`, `(0,2)`, `(1,3)` reach the threshold), and the
grouped confidence of cell `(0,3)` is the mean `(-1 + 1 + -1)/3 = -1/3`,
which is negative — confidence values do not lie in `[0,1]`. -/
theorem classify_board_conf_negative :
    ((classify_board cexOps 0 0 0 cexCfg).2.headD []).getD 3 0 < 0 := by
  have h1 : ((classify_board cexOps 0 0 0 cexCfg).2.headD []).getD 3 0
      = memberConf (pairScoresOf cexOps cexUnres) cexGroup (0, 3) := by rfl
  have h2 : memberConf (pairScoresOf cexOps cexUnres) cexGroup (0, 3)
      = ratMean [-1, 1, -1] := by rfl
  rw [h1, h2]
  unfold ratMean
  norm_num

theorem insertSortedBy_perm {α : Type} (le : α → α → Bool) (x : α) :
    ∀ l : List α, (insertSortedBy le x l).Perm (x :: l) := by
  intro l
  induction l with
  | nil => exact List.Perm.refl _
  | cons y ys ih =>
    rw [insertSortedBy]
    by_cases h : le x y = true
    · rw [if_pos h]
    · rw [if_neg h]
      exact (List.Perm.cons y ih).trans (List.Perm.swap x y ys)

theorem sortBy_perm {α : Type} (le : α → α → Bool) :
    ∀ l : List α, (sortBy le l).Perm l := by
  intro l
  induction l with
  | nil => exact List.Perm.refl _
  | cons x xs ih =>
    rw [sortBy]
    exact (insertSortedBy_perm le x (sortBy le xs)).trans (List.Perm.cons x ih)

theorem mem_insertSortedBy {α : Type} (le : α → α → Bool) (x z : α) (l : List α) :
    z ∈ insertSortedBy le x l ↔ z = x ∨ z ∈ l := by
  rw [(insertSortedBy_perm le x l).mem_iff, List.mem_cons]

theorem pairwise_insertSortedBy {α : Type} (le : α → α → Bool)
    (htot : ∀ a b, le a b = true ∨ le b a = true)
    (htr : ∀ a b c, le a b = true → le b c = true → le a c = true) (x : α) :
    ∀ l : List α, (l.Pairwise fun a b => le a b = true) →
      (insertSortedBy le x l).Pairwise fun a b => le a b = true := by
  intro l
  induction l with
  | nil =>
    intro hnil
    simp [insertSortedBy]
  | cons y ys ih =>
    intro h
    rw [insertSortedBy]
    by_cases hxy : le x y = true
    · rw [if_pos hxy]
      refine List.Pairwise.cons ?_ h
      intro z hz
      rcases List.mem_cons.mp hz with rfl | hz
      · exact hxy
      · exact htr x y z hxy (List.rel_of_pairwise_cons h hz)
    · rw [if_neg hxy]
      have hyx : le y x = true := (htot x y).resolve_left hxy
      refine List.Pairwise.cons ?_ (ih (List.pairwise_cons.mp h).2)
      intro z hz
      rcases (mem_insertSortedBy le x z ys).mp hz with rfl | hz
      · exact hyx
      · exact List.rel_of_pairwise_cons h hz

theorem pairwise_sortBy {α : Type} (le : α → α → Bool)
    (htot : ∀ a b, le a b = true ∨ le b a = true)
    (htr : ∀ a b c, le a b = true → le b c = true → le a c = true) :
    ∀ l : List α, (sortBy le l).Pairwise fun a b => le a b = true := by
  intro l
  induction l with
  | nil => exact List.Pairwise.nil
  | cons x xs ih => exact pairwise_insertSortedBy le htot htr x (sortBy le xs) ih

theorem cellLE_total (a b : GCell) : cellLE a b = true ∨ cellLE b a = true := by
  unfold cellLE
  simp only [decide_eq_true_eq]
  omega

theorem cellLE_trans (a b c : GCell) (h1 : cellLE a b = true) (h2 : cellLE b c = true) :
    cellLE a c = true := by
  unfold cellLE at h1 h2 ⊢
  simp only [decide_eq_true_eq] at h1 h2 ⊢
  omega

theorem cellLT_asymm_of_LE (a b : GCell) (h1 : cellLT a b = true) (h2 : cellLE b a = true) :
    False := by
  unfold cellLT at h1
  unfold cellLE at h2
  simp only [decide_eq_true_eq] at h1 h2
  omega

theorem cellLT_or (a b : GCell) (h : a ≠ b) : cellLT a b = true ∨ cellLT b a = true := by
  unfold cellLT
  simp only [decide_eq_true_eq]
  by_cases h1 : a.1 = b.1
  · by_cases h2 : a.2 = b.2
    · exact absurd (Prod.ext_iff.mpr ⟨h1, h2⟩) h
    · omega
  · omega

theorem getD_of_lt {α : Type} (l : List α) (n : Nat) (d : α) (h : n < l.length) :
    l.getD n d = l.get ⟨n, h⟩ := by
  rw [List.getD_eq_getElem?_getD, List.getElem?_eq_getElem h]
  rfl

theorem mem_pairList (n i j : Nat) : (i, j) ∈ pairList n ↔ i < j ∧ j < n := by
  unfold pairList
  rw [List.mem_flatMap]
  constructor
  · rintro ⟨i', hi', h⟩
    rw [List.mem_map] at h
    obtain ⟨j', hj', heq⟩ := h
    rw [Prod.mk.injEq] at heq
    obtain ⟨rfl, rfl⟩ := heq
    rw [List.mem_range] at hi'
    rw [List.mem_range'_1] at hj'
    omega
  · rintro ⟨hij, hjn⟩
    refine ⟨i, List.mem_range.mpr (by omega), ?_⟩
    rw [List.mem_map]
    exact ⟨j, List.mem_range'_1.mpr ⟨by omega, by omega⟩, rfl⟩

theorem cellsOf_sorted {Frame : Type} (cell_imgs : List (GCell × Frame)) :
    (cellsOf cell_imgs).Pairwise fun a b => cellLE a b = true :=
  pairwise_sortBy cellLE cellLE_total cellLE_trans _

theorem exists_lt_indices {Frame : Type} (cell_imgs : List (GCell × Frame))
    (a b : GCell) (ha : a ∈ cellsOf cell_imgs) (hb : b ∈ cellsOf cell_imgs)
    (hab : cellLT a b = true) :
    ∃ i j, ∃ (hi : i < (cellsOf cell_imgs).length)
      (hj : j < (cellsOf cell_imgs).length),
      i < j ∧ (cellsOf cell_imgs).get ⟨i, hi⟩ = a ∧
        (cellsOf cell_imgs).get ⟨j, hj⟩ = b := by
  obtain ⟨i, hi, hia⟩ := List.mem_iff_getElem.mp ha
  obtain ⟨j, hj, hjb⟩ := List.mem_iff_getElem.mp hb
  refine ⟨i, j, hi, hj, ?_, hia, hjb⟩
  rcases Nat.lt_or_ge i j with hlt | hge
  · exact hlt
  · exfalso
    rcases Nat.lt_or_ge j i with hlt2 | hge2
    · have := (List.pairwise_iff_getElem.mp (cellsOf_sorted cell_imgs)) j i hj hi hlt2
      rw [hjb, hia] at this
      exact cellLT_asymm_of_LE a b hab this
    · have hij : i = j := by omega
      subst hij
      rw [hia] at hjb
      subst hjb
      unfold cellLT at hab
      simp only [decide_eq_true_eq] at hab
      omega

theorem lookupScore_eq {Frame : Type} [Inhabited Frame] (ops : ImgOps Frame)
    (cell_imgs : List (GCell × Frame)) (a b : GCell)
    (ha : a ∈ cellsOf cell_imgs) (hb : b ∈ cellsOf cell_imgs)
    (hab : cellLT a b = true) :
    lookupScore (pairScoresOf ops cell_imgs) a b = pairSimImgs ops cell_imgs a b := by
  obtain ⟨i, j, hi, hj, hij, hia, hjb⟩ := exists_lt_indices cell_imgs a b ha hb hab
  unfold lookupScore
  cases hf : (pairScoresOf ops cell_imgs).find? fun e => e.1 = (a, b) with
  | none =>
    exfalso
    rw [List.find?_eq_none] at hf
    have hmem : (((cellsOf cell_imgs).getD i (0, 0), (cellsOf cell_imgs).getD j (0, 0)),
        simAt ops cell_imgs i j) ∈ pairScoresOf ops cell_imgs := by
      unfold pairScoresOf
      exact List.mem_map_of_mem _ ((mem_pairList _ i j).mpr ⟨hij, hj⟩)
    apply hf _ hmem
    rw [getD_of_lt _ i _ hi, getD_of_lt _ j _ hj, hia, hjb]
    simp
  | some e =>
    have hkey := List.find?_some hf
    rw [decide_eq_true_eq] at hkey
    have hmem := List.mem_of_find?_eq_some hf
    unfold pairScoresOf at hmem
    rw [List.mem_map] at hmem
    obtain ⟨ij, hijmem, rfl⟩ := hmem
    rw [Prod.mk.injEq] at hkey
    show simAt ops cell_imgs ij.1 ij.2 = pairSimImgs ops cell_imgs a b
    unfold simAt
    rw [hkey.1, hkey.2]

theorem mem_distinctRoots (x : Nat) : ∀ l : List Nat, x ∈ distinctRoots l ↔ x ∈ l := by
  intro l
  induction l with
  | nil => exact Iff.rfl
  | cons r rs ih =>
    rw [distinctRoots]
    constructor
    · intro h
      rcases List.mem_cons.mp h with rfl | h
      · exact List.mem_cons_self _ _
      · rw [List.mem_filter] at h
        exact List.mem_cons_of_mem _ (ih.mp h.1)
    · intro h
      rcases List.mem_cons.mp h with rfl | h
      · exact List.mem_cons_self _ _
      · by_cases hx : x = r
        · rw [hx]
          exact List.mem_cons_self _ _
        · refine List.mem_cons_of_mem _ ?_
          rw [List.mem_filter]
          exact ⟨ih.mpr h, by simpa using hx⟩

theorem distinctRoots_nodup : ∀ l : List Nat, (distinctRoots l).Nodup := by
  intro l
  induction l with
  | nil => exact List.nodup_nil
  | cons r rs ih =>
    rw [distinctRoots]
    refine List.Nodup.cons ?_ (List.Nodup.filter _ ih)
    intro hmem
    rw [List.mem_filter] at hmem
    simp at hmem

theorem count_flatten_groups (cells : List GCell) (root : GCell → Nat) (c : GCell) :
    ∀ rs : List Nat, rs.Nodup →
      ((rs.map fun r => sortBy cellLE (cells.filter fun x => root x = r)).flatten).count c
        = if root c ∈ rs then cells.count c else 0 := by
  intro rs
  induction rs with
  | nil =>
    intro hnd
    simp
  | cons r rest ih =>
    intro hnd
    have hpc : List.count c (sortBy cellLE (cells.filter fun x => root x = r))
        = List.count c (cells.filter fun x => root x = r) :=
      (sortBy_perm cellLE (cells.filter fun x => root x = r)).countP_eq
        (fun x => x == c)
    rw [List.map_cons, List.flatten_cons, List.count_append,
      ih (List.nodup_cons.mp hnd).2, hpc]
    by_cases hc : root c = r
    · have h1 : (cells.filter fun x => root x = r).count c = cells.count c :=
        List.count_filter (by simpa using hc)
      have h2 : r ∉ rest := (List.nodup_cons.mp hnd).1
      simp [h1, h2, hc]
    · have h1 : (cells.filter fun x => root x = r).count c = 0 := by
        rw [List.count_eq_zero]
        intro hmem
        rw [List.mem_filter] at hmem
        exact hc (by simpa using hmem.2)
      by_cases h2 : root c ∈ rest
      · have h3 : root c ∈ r :: rest := List.mem_cons_of_mem _ h2
        simp [h1, h2, hc]
      · have h3 : root c ∉ r :: rest := by
          intro hx
          rcases List.mem_cons.mp hx with h | h
          · exact hc h
          · exact h2 h
        simp [h1, h2, hc]

theorem sortedGroups_flatten_nodup {Frame : Type} [Inhabited Frame]
    (ops : ImgOps Frame) (cell_imgs : List (GCell × Frame)) (config : CConfig)
    (hnd : (cell_imgs.map fun e => e.1).Nodup) :
    ((sortedGroupsOf ops cell_imgs config).flatten).Nodup := by
  have hcells : (cellsOf cell_imgs).Nodup :=
    (sortBy_perm cellLE _).nodup_iff.mpr hnd
  have hperm : ((sortedGroupsOf ops cell_imgs config).flatten).Perm
      (((groupsOfRoot (cellsOf cell_imgs) (rootOf ops cell_imgs config)).map
        (sortBy cellLE)).flatten) :=
    (sortBy_perm groupLE _).flatten
  rw [hperm.nodup_iff]
  rw [List.nodup_flatten]
  constructor
  · intro g hg
    rw [List.mem_map] at hg
    obtain ⟨g0, hg0, rfl⟩ := hg
    unfold groupsOfRoot at hg0
    rw [List.mem_map] at hg0
    obtain ⟨r, hr, rfl⟩ := hg0
    exact (sortBy_perm cellLE _).nodup_iff.mpr (hcells.filter _)
  · unfold groupsOfRoot
    rw [List.map_map, List.pairwise_map]
    refine List.Pairwise.imp ?_
      (distinctRoots_nodup ((cellsOf cell_imgs).map (rootOf ops cell_imgs config)))
    intro a b hab x hx hx2
    have h1 := ((sortBy_perm cellLE _).mem_iff).mp hx
    have h2 := ((sortBy_perm cellLE _).mem_iff).mp hx2
    rw [List.mem_filter] at h1 h2
    have ha : rootOf ops cell_imgs config x = a := by simpa using h1.2
    have hb : rootOf ops cell_imgs config x = b := by simpa using h2.2
    exact hab (ha ▸ hb)

theorem sortedGroups_pairwise_disjoint {Frame : Type} [Inhabited Frame]
    (ops : ImgOps Frame) (cell_imgs : List (GCell × Frame)) (config : CConfig)
    (hnd : (cell_imgs.map fun e => e.1).Nodup) :
    (sortedGroupsOf ops cell_imgs config).Pairwise List.Disjoint :=
  (List.nodup_flatten.mp (sortedGroups_flatten_nodup ops cell_imgs config hnd)).2

theorem lookup_map_pair_some {β : Type} (f : GCell → β) (x : GCell) :
    ∀ g : List GCell, x ∈ g → (g.map fun c => (c, f c)).lookup x = some (f x) := by
  intro g
  induction g with
  | nil =>
    intro h
    exact absurd h (List.not_mem_nil x)
  | cons y ys ih =>
    intro h
    by_cases hxy : x = y
    · subst hxy
      simp
    · rw [List.map_cons, List.lookup_cons]
      have hbeq : (x == y) = false := by simpa using hxy
      rw [hbeq]
      exact ih ((List.mem_cons.mp h).resolve_left hxy)

theorem lookup_map_pair_none {β : Type} (f : GCell → β) (x : GCell) :
    ∀ g : List GCell, x ∉ g → (g.map fun c => (c, f c)).lookup x = none := by
  intro g
  induction g with
  | nil =>
    intro h
    rfl
  | cons y ys ih =>
    intro h
    have hxy : x ≠ y := fun e => h (e ▸ List.mem_cons_self _ _)
    rw [List.map_cons, List.lookup_cons]
    have hbeq : (x == y) = false := by simpa using hxy
    rw [hbeq]
    exact ih fun hm => h (List.mem_cons_of_mem _ hm)

/-- The number of accepted (size at least two and even) groups strictly
before position `k` in the sorted group list; the shared id of the group
at `k` is `next_id` plus this count. -/
def acceptedBefore (gs : List (List GCell)) (k : Nat) : Nat :=
  ((gs.take k).filter fun g => !decide (g.length < 2 ∨ g.length % 2 ≠ 0)).length

theorem acceptedBefore_cons (g : List GCell) (rest : List (List GCell)) (k : Nat) :
    acceptedBefore (g :: rest) (k + 1)
      = (if g.length < 2 ∨ g.length % 2 ≠ 0 then 0 else 1) + acceptedBefore rest k := by
  unfold acceptedBefore
  rw [List.take_succ_cons, List.filter_cons]
  by_cases hrej : g.length < 2 ∨ g.length % 2 ≠ 0
  · rw [if_pos hrej, if_neg (by simp; omega)]
    omega
  · rw [if_neg hrej, if_pos (by simp; omega)]
    rw [List.length_cons]
    omega

theorem assignGroups_cons_rej (ps : List ((GCell × GCell) × Rat)) (g : List GCell)
    (rest : List (List GCell)) (next_id : Nat)
    (hrej : g.length < 2 ∨ g.length % 2 ≠ 0) :
    assignGroups ps next_id (g :: rest)
      = (g.map (fun c => (c, (0 : Int))) ++ (assignGroups ps next_id rest).1,
         g.map (fun c => (c, (0 : Rat))) ++ (assignGroups ps next_id rest).2) := by
  conv_lhs => rw [assignGroups]
  rw [if_pos hrej]

theorem assignGroups_cons_acc (ps : List ((GCell × GCell) × Rat)) (g : List GCell)
    (rest : List (List GCell)) (next_id : Nat)
    (hacc : ¬(g.length < 2 ∨ g.length % 2 ≠ 0)) :
    assignGroups ps next_id (g :: rest)
      = (g.map (fun c => (c, (next_id : Int))) ++ (assignGroups ps (next_id + 1) rest).1,
         g.map (fun c => (c, memberConf ps g c)) ++ (assignGroups ps (next_id + 1) rest).2) := by
  conv_lhs => rw [assignGroups]
  rw [if_neg hacc]

theorem assignGroups_lookup (ps : List ((GCell × GCell) × Rat)) :
    ∀ (gs : List (List GCell)) (next_id : Nat) (k : Nat) (hk : k < gs.length)
      (c : GCell), c ∈ gs.get ⟨k, hk⟩ →
      (∀ m (hm : m < k), c ∉ gs.get ⟨m, Nat.lt_trans hm hk⟩) →
      if (gs.get ⟨k, hk⟩).length < 2 ∨ (gs.get ⟨k, hk⟩).length % 2 ≠ 0 then
        (assignGroups ps next_id gs).1.lookup c = some 0 ∧
        (assignGroups ps next_id gs).2.lookup c = some 0
      else
        (assignGroups ps next_id gs).1.lookup c
            = some ((next_id + acceptedBefore gs k : Nat) : Int) ∧
        (assignGroups ps next_id gs).2.lookup c
            = some (memberConf ps (gs.get ⟨k, hk⟩) c) := by
  intro gs
  induction gs with
  | nil =>
    intro next_id k hk
    exact absurd hk (by simp)
  | cons g rest ih =>
    intro next_id k hk c hc hbefore
    cases k with
    | zero =>
      have hget : (g :: rest).get ⟨0, hk⟩ = g := rfl
      rw [hget] at hc ⊢
      by_cases hrej : g.length < 2 ∨ g.length % 2 ≠ 0
      · rw [if_pos hrej, assignGroups_cons_rej ps g rest next_id hrej]
        constructor
        · show ((g.map fun x => (x, (0 : Int))) ++ (assignGroups ps next_id rest).1).lookup c
            = some 0
          rw [List.lookup_append, lookup_map_pair_some (fun _ => (0 : Int)) c g hc]
          rfl
        · show ((g.map fun x => (x, (0 : Rat))) ++ (assignGroups ps next_id rest).2).lookup c
            = some 0
          rw [List.lookup_append, lookup_map_pair_some (fun _ => (0 : Rat)) c g hc]
          rfl
      · rw [if_neg hrej, assignGroups_cons_acc ps g rest next_id hrej]
        constructor
        · show ((g.map fun x => (x, (next_id : Int)))
              ++ (assignGroups ps (next_id + 1) rest).1).lookup c
            = some ((next_id + acceptedBefore (g :: rest) 0 : Nat) : Int)
          rw [List.lookup_append, lookup_map_pair_some (fun _ => (next_id : Int)) c g hc]
          rfl
        · show ((g.map fun x => (x, memberConf ps g x))
              ++ (assignGroups ps (next_id + 1) rest).2).lookup c
            = some (memberConf ps g c)
          rw [List.lookup_append, lookup_map_pair_some (fun x => memberConf ps g x) c g hc]
          rfl
    | succ k2 =>
      have hk2 : k2 < rest.length := Nat.lt_of_succ_lt_succ hk
      have hcg : c ∉ g := hbefore 0 (Nat.succ_pos k2)
      have hb2 : ∀ m (hm : m < k2), c ∉ rest.get ⟨m, Nat.lt_trans hm hk2⟩ :=
        fun m hm => hbefore (m + 1) (Nat.succ_lt_succ hm)
      have hget : (g :: rest).get ⟨k2 + 1, hk⟩ = rest.get ⟨k2, hk2⟩ := rfl
      by_cases hrej : g.length < 2 ∨ g.length % 2 ≠ 0
      · have h1 : (assignGroups ps next_id (g :: rest)).1.lookup c
            = (assignGroups ps next_id rest).1.lookup c := by
          rw [assignGroups_cons_rej ps g rest next_id hrej]
          show ((g.map fun x => (x, (0 : Int))) ++ (assignGroups ps next_id rest).1).lookup c = _
          rw [List.lookup_append, lookup_map_pair_none (fun _ => (0 : Int)) c g hcg]
          rfl
        have h2 : (assignGroups ps next_id (g :: rest)).2.lookup c
            = (assignGroups ps next_id rest).2.lookup c := by
          rw [assignGroups_cons_rej ps g rest next_id hrej]
          show ((g.map fun x => (x, (0 : Rat))) ++ (assignGroups ps next_id rest).2).lookup c = _
          rw [List.lookup_append, lookup_map_pair_none (fun _ => (0 : Rat)) c g hcg]
          rfl
        have hab : acceptedBefore (g :: rest) (k2 + 1) = acceptedBefore rest k2 := by
          rw [acceptedBefore_cons, if_pos hrej]
          exact Nat.zero_add _
        have hmain := ih next_id k2 hk2 c hc hb2
        rw [hget, h1, h2, hab]
        exact hmain
      · have h1 : (assignGroups ps next_id (g :: rest)).1.lookup c
            = (assignGroups ps (next_id + 1) rest).1.lookup c := by
          rw [assignGroups_cons_acc ps g rest next_id hrej]
          show ((g.map fun x => (x, (next_id : Int)))
              ++ (assignGroups ps (next_id + 1) rest).1).lookup c = _
          rw [List.lookup_append, lookup_map_pair_none (fun _ => (next_id : Int)) c g hcg]
          rfl
        have h2 : (assignGroups ps next_id (g :: rest)).2.lookup c
            = (assignGroups ps (next_id + 1) rest).2.lookup c := by
          rw [assignGroups_cons_acc ps g rest next_id hrej]
          show ((g.map fun x => (x, memberConf ps g x))
              ++ (assignGroups ps (next_id + 1) rest).2).lookup c = _
          rw [List.lookup_append, lookup_map_pair_none (fun x => memberConf ps g x) c g hcg]
          rfl
        have hab : acceptedBefore (g :: rest) (k2 + 1) = 1 + acceptedBefore rest k2 := by
          rw [acceptedBefore_cons, if_neg hrej]
        have hid : next_id + (1 + acceptedBefore rest k2)
            = (next_id + 1) + acceptedBefore rest k2 := by
          omega
        have hmain := ih (next_id + 1) k2 hk2 c hc hb2
        rw [hget, h1, h2, hab, hid]
        exact hmain

theorem mem_sortedGroups_mem_cells {Frame : Type} [Inhabited Frame]
    (ops : ImgOps Frame) (cell_imgs : List (GCell × Frame)) (config : CConfig)
    (g : List GCell) (hg : g ∈ sortedGroupsOf ops cell_imgs config)
    (x : GCell) (hx : x ∈ g) : x ∈ cellsOf cell_imgs := by
  unfold sortedGroupsOf at hg
  have hg2 := (sortBy_perm groupLE _).mem_iff.mp hg
  rw [List.mem_map] at hg2
  obtain ⟨g0, hg0, rfl⟩ := hg2
  unfold groupsOfRoot at hg0
  rw [List.mem_map] at hg0
  obtain ⟨r, hr, rfl⟩ := hg0
  have hx2 := (sortBy_perm cellLE _).mem_iff.mp hx
  exact (List.mem_filter.mp hx2).1

theorem memberConf_eq_sims {Frame : Type} [Inhabited Frame]
    (ops : ImgOps Frame) (cell_imgs : List (GCell × Frame))
    (g : List GCell) (c : GCell)
    (hmem : ∀ x ∈ g, x ∈ cellsOf cell_imgs) (hc : c ∈ g) :
    memberConf (pairScoresOf ops cell_imgs) g c
      = ratMean ((g.filter fun o => o ≠ c).map fun o =>
          if cellLT c o then pairSimImgs ops cell_imgs c o
          else pairSimImgs ops cell_imgs o c) := by
  unfold memberConf
  congr 1
  apply List.map_congr_left
  intro o ho
  have hog : o ∈ g := (List.mem_filter.mp ho).1
  have hne : o ≠ c := by simpa using (List.mem_filter.mp ho).2
  by_cases hlt : cellLT c o = true
  · rw [if_pos hlt, if_pos hlt,
      lookupScore_eq ops cell_imgs c o (hmem c hc) (hmem o hog) hlt]
  · have hlt2 : cellLT o c = true := (cellLT_or o c hne).resolve_right hlt
    rw [if_neg hlt, if_neg hlt,
      lookupScore_eq ops cell_imgs o c (hmem o hog) (hmem c hc) hlt2]

/-- C4: in `group_tiles_by_similarity` (duplicate-free, non-empty cell
dictionary), with the groups ordered by their lexicographically smallest
cell as `sortedGroupsOf` lists them, every group whose size is at least 2
and even receives one fresh shared positive id — `1` plus the number of
accepted groups before it, so ids increment per accepted group starting at
`1` — and each member's confidence is the mean of its pairwise similarities
with the other group members (keys ordered as Python's sorted tuples);
every singleton or odd-sized group yields id `0` and confidence `0.0` for
each member. -/
theorem group_tiles_assignment {Frame : Type} [Inhabited Frame]
    (ops : ImgOps Frame) (cell_imgs : List (GCell × Frame)) (config : CConfig)
    (hnd : (cell_imgs.map fun e => e.1).Nodup) (hne : cell_imgs ≠ [])
    (k : Nat) (hk : k < (sortedGroupsOf ops cell_imgs config).length) (c : GCell)
    (hc : c ∈ (sortedGroupsOf ops cell_imgs config).get ⟨k, hk⟩) :
    if 2 ≤ ((sortedGroupsOf ops cell_imgs config).get ⟨k, hk⟩).length ∧
        ((sortedGroupsOf ops cell_imgs config).get ⟨k, hk⟩).length % 2 = 0 then
      (group_tiles_by_similarity ops cell_imgs config).1.lookup c
          = some ((1 + acceptedBefore (sortedGroupsOf ops cell_imgs config) k : Nat) : Int) ∧
      (group_tiles_by_similarity ops cell_imgs config).2.lookup c
          = some (ratMean
              ((((sortedGroupsOf ops cell_imgs config).get ⟨k, hk⟩).filter
                  fun o => o ≠ c).map fun o =>
                if cellLT c o then pairSimImgs ops cell_imgs c o
                else pairSimImgs ops cell_imgs o c))
    else
      (group_tiles_by_similarity ops cell_imgs config).1.lookup c = some 0 ∧
      (group_tiles_by_similarity ops cell_imgs config).2.lookup c = some 0 := by
  have hlen : ¬ cell_imgs.length = 0 := fun h => hne (List.length_eq_zero.mp h)
  have hgts : group_tiles_by_similarity ops cell_imgs config
      = assignGroups (pairScoresOf ops cell_imgs) 1 (sortedGroupsOf ops cell_imgs config) := by
    unfold group_tiles_by_similarity
    rw [if_neg hlen]
  have hdisj := sortedGroups_pairwise_disjoint ops cell_imgs config hnd
  have hb : ∀ m (hm : m < k),
      c ∉ (sortedGroupsOf ops cell_imgs config).get ⟨m, Nat.lt_trans hm hk⟩ := by
    intro m hm hcm
    exact (List.pairwise_iff_getElem.mp hdisj) m k (Nat.lt_trans hm hk) hk hm hcm hc
  have hmain := assignGroups_lookup (pairScoresOf ops cell_imgs)
    (sortedGroupsOf ops cell_imgs config) 1 k hk c hc hb
  have hconf : memberConf (pairScoresOf ops cell_imgs)
      ((sortedGroupsOf ops cell_imgs config).get ⟨k, hk⟩) c
      = ratMean ((((sortedGroupsOf ops cell_imgs config).get ⟨k, hk⟩).filter
          fun o => o ≠ c).map fun o =>
            if cellLT c o then pairSimImgs ops cell_imgs c o
            else pairSimImgs ops cell_imgs o c) :=
    memberConf_eq_sims ops cell_imgs _ c
      (fun x hx => mem_sortedGroups_mem_cells ops cell_imgs config _
        (List.get_mem _ _ _) x hx) hc
  by_cases hacc : 2 ≤ ((sortedGroupsOf ops cell_imgs config).get ⟨k, hk⟩).length ∧
      ((sortedGroupsOf ops cell_imgs config).get ⟨k, hk⟩).length % 2 = 0
  · rw [if_pos hacc, hgts]
    rw [if_neg (by omega)] at hmain
    refine ⟨hmain.1, ?_⟩
    rw [← hconf]
    exact hmain.2
  · rw [if_neg hacc, hgts]
    rw [if_pos (by omega)] at hmain
    exact hmain

/-- A two-cell world in which both cells match perfectly: the classifier
groups them into one accepted pair. -/
def w4Ops : ImgOps Nat where
  size := fun _ => 1
  scoreSim := fun _ _ => 0
  pinkRatio := fun _ => 0
  textureStd := fun _ => 0
  prep := fun f => f
  matchT := fun _ _ => 1
  crop := fun _ _ col => col

/-- A `1 × 2` configuration with similarity threshold `1`. -/
def w4Cfg : CConfig := ⟨1, 2, 1, 1, 0, 1⟩

/-- The two unresolved cells with their crops. -/
def w4Imgs : List (GCell × Nat) := [((0, 0), 0), ((0, 1), 1)]

theorem w4_hk : 0 < (sortedGroupsOf w4Ops w4Imgs w4Cfg).length := by decide

theorem group_tiles_assignment_witness :
    ((w4Imgs.map fun e => e.1).Nodup ∧ w4Imgs ≠ [] ∧
      (0, 0) ∈ (sortedGroupsOf w4Ops w4Imgs w4Cfg).get ⟨0, w4_hk⟩) ∧
    (if 2 ≤ ((sortedGroupsOf w4Ops w4Imgs w4Cfg).get ⟨0, w4_hk⟩).length ∧
        ((sortedGroupsOf w4Ops w4Imgs w4Cfg).get ⟨0, w4_hk⟩).length % 2 = 0 then
      (group_tiles_by_similarity w4Ops w4Imgs w4Cfg).1.lookup (0, 0)
          = some ((1 + acceptedBefore (sortedGroupsOf w4Ops w4Imgs w4Cfg) 0 : Nat) : Int) ∧
      (group_tiles_by_similarity w4Ops w4Imgs w4Cfg).2.lookup (0, 0)
          = some (ratMean
              ((((sortedGroupsOf w4Ops w4Imgs w4Cfg).get ⟨0, w4_hk⟩).filter
                  fun o => o ≠ (0, 0)).map fun o =>
                if cellLT (0, 0) o then pairSimImgs w4Ops w4Imgs (0, 0) o
                else pairSimImgs w4Ops w4Imgs o (0, 0)))
    else
      (group_tiles_by_similarity w4Ops w4Imgs w4Cfg).1.lookup (0, 0) = some 0 ∧
      (group_tiles_by_similarity w4Ops w4Imgs w4Cfg).2.lookup (0, 0) = some 0) :=
  ⟨⟨by decide, by decide, by decide⟩,
    group_tiles_assignment w4Ops w4Imgs w4Cfg (by decide) (by decide) 0 w4_hk (0, 0)
      (by decide)⟩
